import Mathlib

/-
Verification of the BB84 QKD simulator core (services/qkdService.ts together
with constants.ts and types.ts).

The simulator is a single synchronous pipeline `runBB84Simulation` driven by
a source of uniformly random bits and bases.  We embed it shallowly:

* randomness is an injected tape (one pre-drawn stream per call site of the
  random source; the source draws each value independently, so pre-drawing
  per-role streams is distribution-faithful and every claim below is stated
  for all, or for some, tapes);
* JavaScript numbers are IEEE-754 binary64 values.  All integer quantities
  in the pipeline stay far below 2^53 and are therefore exact, but the three
  genuinely fractional computations (`qberSampleSize / 100`, the product with
  the sifted length inside `Math.ceil`, and `qberErrors / qberSampleCount`)
  are modelled exactly by `round64`, correct rounding of a rational to the
  nearest binary64 value (ties to even).  No value in any reachable run comes
  near overflow or subnormals, so `round64` omits those;
* the log is modelled as the ordered list of pushed entries, one constructor
  per `log.push` call site, carrying the interpolated dynamic values (the
  surrounding English text is presentation and carries no further data);
* strings built from the hash are modelled as lists of characters;
* `crypto.subtle.digest` with SHA-256 is modelled by a full executable
  SHA-256 over the UTF-8 bytes of the serialized key, and the digest-to-hex
  rendering follows the source (toString(16) with two-digit zero padding);
* `Array.from({length: n})` throws a RangeError for n ≥ 2^32 and produces
  max(n, 0) elements otherwise (ToLength clamping); this is the only failure
  path of the function, hence the `Except` result.
-/

set_option maxHeartbeats 1000000

/-! ## Binary64 rounding of rationals -/

/-- Fuel-driven bit length: bitLenAux fuel n is the number of binary digits
of n provided fuel ≥ n.  Structural recursion on the fuel keeps it kernel
reducible. -/
def bitLenAux : Nat → Nat → Nat
  | 0, _ => 0
  | fuel + 1, n => if n = 0 then 0 else bitLenAux fuel (n / 2) + 1

/-- Number of binary digits of n: the unique L with 2^(L-1) ≤ n < 2^L for
n ≥ 1, and 0 for n = 0. -/
def bitLen (n : Nat) : Nat := bitLenAux n n

/-- Powers of two over the rationals for an integer exponent, kept executable
with natural-number powers. -/
def pow2 (k : Int) : ℚ :=
  if 0 ≤ k then ((2 ^ k.toNat : ℕ) : ℚ) else 1 / ((2 ^ (-k).toNat : ℕ) : ℚ)

/-- Round a rational to the nearest integer, ties to even (the IEEE-754
default rounding applied to a scaled significand). -/
def roundEven (q : ℚ) : ℤ :=
  if q - ⌊q⌋ < 1 / 2 then ⌊q⌋
  else if 1 / 2 < q - ⌊q⌋ then ⌊q⌋ + 1
  else if ⌊q⌋ % 2 = 0 then ⌊q⌋ else ⌊q⌋ + 1

/-- Binary exponent: the unique e with 2^e ≤ |q| < 2^(e+1) for q ≠ 0. -/
def qexp (q : ℚ) : ℤ :=
  let d : ℤ := (bitLen q.num.natAbs : ℤ) - (bitLen q.den : ℤ)
  if pow2 d ≤ |q| then d else d - 1

/-- Correct rounding of a rational to the nearest binary64 value (ties to
even), as an exact rational.  Valid away from overflow and subnormals, which
no reachable value of the simulator approaches. -/
def round64 (q : ℚ) : ℚ :=
  if q = 0 then 0
  else ((roundEven (q * pow2 (52 - qexp q)) : ℤ) : ℚ) * pow2 (qexp q - 52)

/-- A JavaScript number holding the integer n. -/
def jsToDouble (n : Int) : ℚ := round64 (n : ℚ)

/-- Binary64 division (correctly rounded). -/
def jsDiv (a b : ℚ) : ℚ := round64 (a / b)

/-- Binary64 multiplication (correctly rounded). -/
def jsMul (a b : ℚ) : ℚ := round64 (a * b)

/-- Math.ceil on a binary64 value (exact: the result is representable in the
ranges reached here). -/
def jsCeil (q : ℚ) : ℤ := ⌈q⌉

/-- constants.ts: QBER_THRESHOLD = 0.11, as the binary64 value of the
literal. -/
def QBER_THRESHOLD : ℚ := round64 (11 / 100)

/-! ## Data model (types.ts) -/

/-- types.ts Basis: one of the two measurement bases. -/
inductive QBasis where
  | rectilinear
  | diagonal
deriving DecidableEq

/-- The injected randomness: one independent uniform stream per call site of
getRandomBit / getRandomBasis (Alice bits and bases, Eve bases and
mismatch outcomes, Bob bases and mismatch outcomes). -/
structure Tape where
  aliceBit : Nat → Bool
  aliceBasis : Nat → QBasis
  eveBasis : Nat → QBasis
  eveRand : Nat → Bool
  bobBasis : Nat → QBasis
  bobRand : Nat → Bool

/-- types.ts SimulationParameters. -/
structure SimulationParameters where
  numQubits : Int
  qberSampleSize : Int
  errorCorrectionBlockSize : Int
  privacyAmplificationLength : Int
  enableEve : Bool
  enableSecureMode : Bool
deriving DecidableEq

/-- types.ts QBERResult; qber is the stored binary64 value. -/
structure QBERResult where
  qber : ℚ
  errors : Nat
  sampleSize : Int
deriving DecidableEq

/-- The log, one constructor per log.push call site of the source, in source
order, carrying the interpolated values. -/
inductive LogEntry where
  | start
  | parameters (p : SimulationParameters)
  | alicePrepared (n : Int)
  | eveAttack
  | eveResent
  | bobMeasured (n : Int)
  | siftingCompleted (len : Nat)
  | noMatchingBases
  | qberCheck (sampleSize : Int) (errors : Nat) (qber : ℚ)
  | alertEveDetected (qber : ℚ) (threshold : ℚ)
  | noteHighQber (qber : ℚ)
  | noteMinorQber (qber : ℚ)
  | keyForEC (len : Nat)
  | ecCompleted (count : Nat)
  | ecReconciled
  | ecMismatchWarning
  | paEmptyKey
  | paCompleted (bits : Int)
  | finalAlice (key : List Char)
  | finalBob (key : List Char)
deriving DecidableEq

/-- types.ts SimulationResult; the two hex keys are lists of characters. -/
structure SimulationResult where
  initialQubits : Int
  siftedKeyLength : Nat
  qberResult : Option QBERResult := none
  eveDetected : Bool
  errorsCorrected : Nat
  finalKeyAlice : List Char
  finalKeyBob : List Char
  log : List LogEntry
deriving DecidableEq

/-- The only failure of runBB84Simulation: array creation with a length
at or above 2^32. -/
inductive SimError where
  | rangeError
deriving DecidableEq

/-! ## Measurement, transmission, sifting -/

/-- Measuring a qubit prepared as tBit in tBasis, in basis mBasis: faithful
when the bases agree, the fresh random bit otherwise.  This is the shared
semantics of the Eve and Bob measurement loops. -/
def measureQubit (tBit : Bool) (tBasis mBasis : QBasis) (rand : Bool) : Bool :=
  if tBasis = mBasis then tBit else rand

/-- The bit of the qubit reaching Bob at index i: the bit Eve measured when
the intercept-resend attack is on, the bit Alice sent otherwise. -/
def transBit (p : SimulationParameters) (t : Tape) (i : Nat) : Bool :=
  if p.enableEve then
    measureQubit (t.aliceBit i) (t.aliceBasis i) (t.eveBasis i) (t.eveRand i)
  else t.aliceBit i

/-- The basis of the qubit reaching Bob at index i: Eve re-encodes in her own
measurement basis when enabled (a simplification the source flags). -/
def transBasisAt (p : SimulationParameters) (t : Tape) (i : Nat) : QBasis :=
  if p.enableEve then t.eveBasis i else t.aliceBasis i

/-- Final measured bit of Bob at index i. -/
def bobBit (p : SimulationParameters) (t : Tape) (i : Nat) : Bool :=
  measureQubit (transBit p t i) (transBasisAt p t i) (t.bobBasis i) (t.bobRand i)

/-- The indices, in transmission order, where the declared bases of Alice
and Bob agree (the selection of the sifting loop). -/
def matchingIndices (n : Nat) (t : Tape) : List Nat :=
  (List.range n).filter fun i => decide (t.aliceBasis i = t.bobBasis i)

/-- Sifted Alice key: the Alice bits at the matching indices, order
preserved. -/
def siftedAliceKey (p : SimulationParameters) (t : Tape) : List Bool :=
  (matchingIndices p.numQubits.toNat t).map t.aliceBit

/-- Sifted Bob key: the final measured Bob bits at the matching indices,
order preserved. -/
def siftedBobKey (p : SimulationParameters) (t : Tape) : List Bool :=
  (matchingIndices p.numQubits.toNat t).map (bobBit p t)

/-- siftedKeyLength right after sifting. -/
def siftedLen (p : SimulationParameters) (t : Tape) : Nat :=
  (siftedAliceKey p t).length

/-! ## QBER estimation -/

/-- Number of positions where the two lists disagree (the QBER comparison
loop; positions beyond either list compare equal, as undefined !== undefined
is false). -/
def countMismatches (a b : List Bool) : Nat :=
  (a.zip b).countP fun pr => decide (pr.1 ≠ pr.2)

/-- qberSampleCount = Math.ceil(siftedKeyLength * (qberSampleSize / 100)),
computed in binary64 exactly as the source does. -/
def qberSampleCount (p : SimulationParameters) (t : Tape) : Int :=
  jsCeil (jsMul (jsToDouble (siftedLen p t))
    (jsDiv (jsToDouble p.qberSampleSize) (jsToDouble 100)))

/-- qberErrors: mismatches over the first qberSampleCount positions of the
sifted keys. -/
def qberErrors (p : SimulationParameters) (t : Tape) : Nat :=
  countMismatches ((siftedAliceKey p t).take (qberSampleCount p t).toNat)
    ((siftedBobKey p t).take (qberSampleCount p t).toNat)

/-- qber = qberSampleCount > 0 ? qberErrors / qberSampleCount : 0, the
division performed in binary64. -/
def qberValue (p : SimulationParameters) (t : Tape) : ℚ :=
  if 0 < qberSampleCount p t then
    jsDiv (jsToDouble (qberErrors p t)) (jsToDouble (qberSampleCount p t))
  else 0

/-- Array.prototype.slice(begin) with a possibly negative begin. -/
def jsSliceFrom {α : Type} (k : Int) (xs : List α) : List α :=
  if 0 ≤ k then xs.drop k.toNat else xs.drop ((xs.length : Int) + k).toNat

/-- keyForErrorCorrectionAlice: the sifted Alice key minus the consumed QBER
sample. -/
def ecKeyAlice (p : SimulationParameters) (t : Tape) : List Bool :=
  jsSliceFrom (qberSampleCount p t) (siftedAliceKey p t)

/-- keyForErrorCorrectionBob: the sifted Bob key minus the consumed QBER
sample. -/
def ecKeyBob (p : SimulationParameters) (t : Tape) : List Bool :=
  jsSliceFrom (qberSampleCount p t) (siftedBobKey p t)

/-- preECKeyLength. -/
def preECKeyLength (p : SimulationParameters) (t : Tape) : Nat :=
  (ecKeyAlice p t).length

/-! ## Error correction (block parity, one fix per block) -/

/-- XOR-fold of a block, initial accumulator 0 (reduce((acc, bit) =>
acc ^ bit, 0)). -/
def parity (l : List Bool) : Bool := l.foldl xor false

/-- Contiguous blocks of size bs, final block possibly shorter.  The bs = 0
case (on which the loop in the source would never advance) is given a harmless
value; every theorem below assumes 0 < bs. -/
def chunks {α : Type} (bs : Nat) : List α → List (List α)
  | [] => []
  | x :: rest =>
    if bs = 0 then [x :: rest]
    else (x :: rest).take bs :: chunks bs ((x :: rest).drop bs)
termination_by xs => xs.length
decreasing_by
  simp only [List.drop_succ_cons, List.length_cons, List.length_drop]
  omega

/-- The error-correction loop: per block, compare parities; on a mismatch
correct the Bob bit at the first differing position to the Alice bit and
count one correction.  Returns the corrected Bob key and the correction count.  Block i
of the loop only reads and writes the current block of the array, so the
in-place loop is the chunkwise recursion below.  The bs = 0 case, on which
the loop in the source would never terminate, is unreachable for the positive
block sizes the contract requires. -/
def errorCorrect (bs : Nat) : List Bool → List Bool → List Bool × Nat
  | [], bob => (bob, 0)
  | a :: rest, bob =>
    if bs = 0 then (bob, 0)
    else
      let alice := a :: rest
      let aB := alice.take bs
      let bB := bob.take bs
      let cbl := min bs aB.length
      let head : List Bool × Nat :=
        if cbl = 0 then (bB, 0)
        else if parity (aB.take cbl) = parity (bB.take cbl) then (bB, 0)
        else
          match (List.range cbl).find? (fun j => decide (aB[j]? ≠ bB[j]?)) with
          | some j => (bB.set j (aB.getD j false), 1)
          | none => (bB, 0)
      let tail := errorCorrect bs (alice.drop bs) (bob.drop bs)
      (head.1 ++ tail.1, head.2 + tail.2)
termination_by alice => alice.length
decreasing_by
  simp only [List.drop_succ_cons, List.length_cons, List.length_drop]
  omega

/-- sharedKeyAfterEC. -/
def reconciledKey (p : SimulationParameters) (t : Tape) : List Bool :=
  (errorCorrect p.errorCorrectionBlockSize.toNat (ecKeyAlice p t) (ecKeyBob p t)).1

/-- errorsCorrectedCount. -/
def errorsCorrectedCount (p : SimulationParameters) (t : Tape) : Nat :=
  (errorCorrect p.errorCorrectionBlockSize.toNat (ecKeyAlice p t) (ecKeyBob p t)).2

/-- keysMatch: keyForErrorCorrectionAlice.every((bit, i) => bit ===
sharedKeyAfterEC[i]). -/
def keysMatchB (p : SimulationParameters) (t : Tape) : Bool :=
  decide (∀ i, i < (ecKeyAlice p t).length →
    (ecKeyAlice p t)[i]? = (reconciledKey p t)[i]?)

/-- The per-block correction described by the specification: untouched on
equal parities, otherwise the Bob bit at the first differing position is
replaced by the Alice bit there. -/
def blockFixSpec (a b : List Bool) : List Bool :=
  if parity a = parity b then b
  else
    match (List.range a.length).find? (fun j => decide (a[j]? ≠ b[j]?)) with
    | some j => b.set j (a.getD j false)
    | none => b

/-! ## SHA-256 (the crypto.subtle digest) and hex rendering -/

/-- Truncate to a 32-bit word. -/
def w32 (n : Nat) : Nat := n % 4294967296

/-- Right rotation of a 32-bit word. -/
def rotr (k n : Nat) : Nat := w32 ((n >>> k) ||| (n <<< (32 - k)))

/-- Bitwise complement of a 32-bit word. -/
def not32 (n : Nat) : Nat := n ^^^ 4294967295

/-- The 64 SHA-256 round constants. -/
def shaK : List Nat :=
  [1116352408, 1899447441, 3049323471, 3921009573,
   961987163, 1508970993, 2453635748, 2870763221,
   3624381080, 310598401, 607225278, 1426881987,
   1925078388, 2162078206, 2614888103, 3248222580,
   3835390401, 4022224774, 264347078, 604807628,
   770255983, 1249150122, 1555081692, 1996064986,
   2554220882, 2821834349, 2952996808, 3210313671,
   3336571891, 3584528711, 113926993, 338241895,
   666307205, 773529912, 1294757372, 1396182291,
   1695183700, 1986661051, 2177026350, 2456956037,
   2730485921, 2820302411, 3259730800, 3345764771,
   3516065817, 3600352804, 4094571909, 275423344,
   430227734, 506948616, 659060556, 883997877,
   958139571, 1322822218, 1537002063, 1747873779,
   1955562222, 2024104815, 2227730452, 2361852424,
   2428436474, 2756734187, 3204031479, 3329325298]

/-- SHA-256 working state / hash value, eight 32-bit words. -/
structure Digest8 where
  a : Nat
  b : Nat
  c : Nat
  d : Nat
  e : Nat
  f : Nat
  g : Nat
  h : Nat
deriving DecidableEq

/-- The SHA-256 initial hash value. -/
def shaInit : Digest8 :=
  ⟨1779033703, 3144134277, 1013904242, 2773480762,
   1359893119, 2600822924, 528734635, 1541459225⟩

/-- Big-endian 8-byte encoding. -/
def beBytes8 (n : Nat) : List Nat :=
  [n / 2 ^ 56 % 256, n / 2 ^ 48 % 256, n / 2 ^ 40 % 256, n / 2 ^ 32 % 256,
   n / 2 ^ 24 % 256, n / 2 ^ 16 % 256, n / 2 ^ 8 % 256, n % 256]

/-- Big-endian 4-byte encoding. -/
def beBytes4 (n : Nat) : List Nat :=
  [n / 2 ^ 24 % 256, n / 2 ^ 16 % 256, n / 2 ^ 8 % 256, n % 256]

/-- SHA-256 padding: 0x80, zeros to 56 mod 64, then the bit length on
8 bytes. -/
def padMessage (msg : List Nat) : List Nat :=
  msg ++ 128 :: List.replicate ((119 - msg.length % 64) % 64) 0
    ++ beBytes8 (8 * msg.length)

/-- Bytes to big-endian 32-bit words, four at a time. -/
def toWords : List Nat → List Nat
  | a :: b :: c :: d :: rest =>
      (a * 2 ^ 24 + b * 2 ^ 16 + c * 2 ^ 8 + d) :: toWords rest
  | _ => []

/-- The next word of the message schedule given the words so far. -/
def nextWord (acc : List Nat) : Nat :=
  let i := acc.length
  let x15 := acc.getD (i - 15) 0
  let x2 := acc.getD (i - 2) 0
  let s0 := rotr 7 x15 ^^^ rotr 18 x15 ^^^ (x15 >>> 3)
  let s1 := rotr 17 x2 ^^^ rotr 19 x2 ^^^ (x2 >>> 10)
  w32 (acc.getD (i - 16) 0 + s0 + acc.getD (i - 7) 0 + s1)

/-- Extend the 16 block words by n further schedule words. -/
def extendWords : Nat → List Nat → List Nat
  | 0, acc => acc
  | n + 1, acc => extendWords n (acc ++ [nextWord acc])

/-- One SHA-256 compression round. -/
def compressRound (st : Digest8) (kw : Nat × Nat) : Digest8 :=
  let s1 := rotr 6 st.e ^^^ rotr 11 st.e ^^^ rotr 25 st.e
  let ch := (st.e &&& st.f) ^^^ (not32 st.e &&& st.g)
  let temp1 := w32 (st.h + s1 + ch + kw.1 + kw.2)
  let s0 := rotr 2 st.a ^^^ rotr 13 st.a ^^^ rotr 22 st.a
  let maj := (st.a &&& st.b) ^^^ (st.a &&& st.c) ^^^ (st.b &&& st.c)
  let temp2 := w32 (s0 + maj)
  ⟨w32 (temp1 + temp2), st.a, st.b, st.c, w32 (st.d + temp1), st.e, st.f, st.g⟩

/-- Process one 16-word block. -/
def processBlock (H : Digest8) (block : List Nat) : Digest8 :=
  let ws := extendWords 48 block
  let st := (shaK.zip ws).foldl compressRound H
  ⟨w32 (H.a + st.a), w32 (H.b + st.b), w32 (H.c + st.c), w32 (H.d + st.d),
   w32 (H.e + st.e), w32 (H.f + st.f), w32 (H.g + st.g), w32 (H.h + st.h)⟩

/-- SHA-256 of a byte sequence, as 32 bytes. -/
def sha256Bytes (msg : List Nat) : List Nat :=
  let final := (chunks 16 (toWords (padMessage msg))).foldl processBlock shaInit
  beBytes4 final.a ++ beBytes4 final.b ++ beBytes4 final.c ++ beBytes4 final.d
    ++ beBytes4 final.e ++ beBytes4 final.f ++ beBytes4 final.g ++ beBytes4 final.h

/-- The sixteen lowercase hex digits, as character codes: digits from code 48,
letters a to f from code 97. -/
def hexDigits : List Char :=
  (List.range 16).map fun n => Char.ofNat (if n < 10 then 48 + n else 87 + n)

/-- A byte as two lowercase hex characters (toString(16).padStart(2, '0')). -/
def byteHex (b : Nat) : List Char :=
  [hexDigits.getD (b / 16) '0', hexDigits.getD (b % 16) '0']

/-- The sha256 helper of the source: digest of the message bytes, rendered
as 64 lowercase hex characters. -/
def sha256HexChars (msg : List Nat) : List Char :=
  (sha256Bytes msg).flatMap byteHex

/-- The join of sharedKeyAfterEC with empty separator, UTF-8 encoded: one
byte 48 / 49 per bit. -/
def bitsToAscii (bits : List Bool) : List Nat :=
  bits.map fun b => if b then 49 else 48

/-! ## Privacy amplification and the orchestrator -/

/-- desiredHexLength = Math.ceil(privacyAmplificationLength / 4), the
division in binary64. -/
def desiredHexLength (p : SimulationParameters) : Int :=
  jsCeil (jsDiv (jsToDouble p.privacyAmplificationLength) (jsToDouble 4))

/-- hash.substring(0, desiredHexLength). -/
def finalKeyChars (p : SimulationParameters) (t : Tape) : List Char :=
  (sha256HexChars (bitsToAscii (reconciledKey p t))).take (desiredHexLength p).toNat

/-- QBER_THRESHOLD / 2 (exact in binary64). -/
def halfThreshold : ℚ := jsDiv QBER_THRESHOLD (jsToDouble 2)

/-- The log up to and including the Alice preparation line. -/
def logThroughPrep (p : SimulationParameters) : List LogEntry :=
  [.start, .parameters p, .alicePrepared p.numQubits]

/-- The log up to and including the Bob measurement line. -/
def logThroughMeasure (p : SimulationParameters) : List LogEntry :=
  logThroughPrep p ++ (if p.enableEve then [.eveAttack, .eveResent] else [])
    ++ [.bobMeasured p.numQubits]

/-- The log up to and including the sifting line. -/
def logThroughSift (p : SimulationParameters) (t : Tape) : List LogEntry :=
  logThroughMeasure p ++ [.siftingCompleted (siftedLen p t)]

/-- The log up to and including the QBER line. -/
def logThroughQber (p : SimulationParameters) (t : Tape) : List LogEntry :=
  logThroughSift p t
    ++ [.qberCheck (qberSampleCount p t) (qberErrors p t) (qberValue p t)]

/-- The soft QBER notes of the else-if chain after the secure-mode check. -/
def softNoteLog (p : SimulationParameters) (t : Tape) : List LogEntry :=
  if p.enableEve = true ∧ halfThreshold < qberValue p t ∧ p.enableSecureMode = false then
    [.noteHighQber (qberValue p t)]
  else if p.enableEve = false ∧ 0 < qberValue p t then
    [.noteMinorQber (qberValue p t)]
  else []

/-- The log up to and including the reconciliation verdict line. -/
def logThroughEC (p : SimulationParameters) (t : Tape) : List LogEntry :=
  logThroughQber p t ++ softNoteLog p t
    ++ [.keyForEC (preECKeyLength p t), .ecCompleted (errorsCorrectedCount p t)]
    ++ (if keysMatchB p t then [.ecReconciled] else [.ecMismatchWarning])

/-- The QBERResult record of the run. -/
def qberResultOf (p : SimulationParameters) (t : Tape) : QBERResult :=
  ⟨qberValue p t, qberErrors p t, qberSampleCount p t⟩

/-- The result of the empty-sift early return (source lines 160-171). -/
def emptySiftResult (p : SimulationParameters) (t : Tape) : SimulationResult :=
  { initialQubits := p.numQubits
    siftedKeyLength := 0
    qberResult := none
    eveDetected := false
    errorsCorrected := 0
    finalKeyAlice := []
    finalKeyBob := []
    log := logThroughSift p t ++ [.noMatchingBases] }

/-- The result of the eavesdropper-detected early return (source lines
186-199). -/
def eveDetectedResult (p : SimulationParameters) (t : Tape) : SimulationResult :=
  { initialQubits := p.numQubits
    siftedKeyLength := siftedLen p t
    qberResult := some (qberResultOf p t)
    eveDetected := true
    errorsCorrected := 0
    finalKeyAlice := []
    finalKeyBob := []
    log := logThroughQber p t ++ [.alertEveDetected (qberValue p t) QBER_THRESHOLD] }

/-- The result of the empty-reconciled-key early return (source lines
256-268). -/
def emptyKeyResult (p : SimulationParameters) (t : Tape) : SimulationResult :=
  { initialQubits := p.numQubits
    siftedKeyLength := siftedLen p t
    qberResult := some (qberResultOf p t)
    eveDetected := false
    errorsCorrected := errorsCorrectedCount p t
    finalKeyAlice := []
    finalKeyBob := []
    log := logThroughEC p t ++ [.paEmptyKey] }

/-- The result of the completed run (source lines 282-291); note
siftedKeyLength here is the post-sample remainder length. -/
def completedResult (p : SimulationParameters) (t : Tape) : SimulationResult :=
  { initialQubits := p.numQubits
    siftedKeyLength := preECKeyLength p t
    qberResult := some (qberResultOf p t)
    eveDetected := false
    errorsCorrected := errorsCorrectedCount p t
    finalKeyAlice := finalKeyChars p t
    finalKeyBob := finalKeyChars p t
    log := logThroughEC p t
      ++ [.paCompleted p.privacyAmplificationLength,
          .finalAlice (finalKeyChars p t), .finalBob (finalKeyChars p t)] }

/-- runBB84Simulation: the full pipeline.  The stage values are the
definitions above; the control flow is the sequence of early
returns. -/
def runBB84Simulation (p : SimulationParameters) (t : Tape) :
    Except SimError SimulationResult :=
  if 2 ^ 32 ≤ p.numQubits then .error .rangeError
  else if siftedLen p t = 0 then .ok (emptySiftResult p t)
  else if p.enableSecureMode = true ∧ QBER_THRESHOLD < qberValue p t then
    .ok (eveDetectedResult p t)
  else if (reconciledKey p t).length = 0 then .ok (emptyKeyResult p t)
  else .ok (completedResult p t)

/-! ## Concrete inputs for witnesses and counterexamples -/

/-- Everything rectilinear, all bits zero: all bases match, no errors. -/
def tapeAllMatch : Tape :=
  { aliceBit := fun _ => false
    aliceBasis := fun _ => QBasis.rectilinear
    eveBasis := fun _ => QBasis.rectilinear
    eveRand := fun _ => false
    bobBasis := fun _ => QBasis.rectilinear
    bobRand := fun _ => false }

/-- Alice and Bob never agree on a basis. -/
def tapeNoMatch : Tape :=
  { aliceBit := fun _ => false
    aliceBasis := fun _ => QBasis.rectilinear
    eveBasis := fun _ => QBasis.rectilinear
    eveRand := fun _ => false
    bobBasis := fun _ => QBasis.diagonal
    bobRand := fun _ => false }

/-- All bases match, but with Eve enabled index 0 is intercepted in the
wrong basis and the Bob mismatch draw flips the bit there. -/
def tapeOneError : Tape :=
  { aliceBit := fun _ => false
    aliceBasis := fun _ => QBasis.rectilinear
    eveBasis := fun i => if i = 0 then QBasis.diagonal else QBasis.rectilinear
    eveRand := fun _ => false
    bobBasis := fun _ => QBasis.rectilinear
    bobRand := fun i => if i = 0 then true else false }

/-- As tapeOneError, but indices 0 and 1 are flipped: two errors in one
block survive parity-based correction. -/
def tapeTwoErrors : Tape :=
  { aliceBit := fun _ => false
    aliceBasis := fun _ => QBasis.rectilinear
    eveBasis := fun i => if i ≤ 1 then QBasis.diagonal else QBasis.rectilinear
    eveRand := fun _ => false
    bobBasis := fun _ => QBasis.rectilinear
    bobRand := fun i => if i ≤ 1 then true else false }

/-- One hundred qubits and a 7 percent sample: binary64 rounding makes the
sample count 8 where exact arithmetic gives 7. -/
def paramsFloatCeil : SimulationParameters :=
  { numQubits := 100, qberSampleSize := 7, errorCorrectionBlockSize := 32
    privacyAmplificationLength := 128, enableEve := true, enableSecureMode := true }

/-- A small clean run: 4 qubits, a 25 percent sample, no Eve. -/
def paramsClean : SimulationParameters :=
  { numQubits := 4, qberSampleSize := 25, errorCorrectionBlockSize := 4
    privacyAmplificationLength := 16, enableEve := false, enableSecureMode := false }

/-- Parameters asking for a 260-bit final key: ceil(260 / 4) = 65 exceeds
the 64 hex characters a SHA-256 digest has. -/
def paramsLongKey : SimulationParameters :=
  { numQubits := 4, qberSampleSize := 0, errorCorrectionBlockSize := 4
    privacyAmplificationLength := 260, enableEve := false, enableSecureMode := false }

/-- Negative qubit count: the claimed fail-fast validation does not exist. -/
def paramsNegative : SimulationParameters :=
  { numQubits := -5, qberSampleSize := 20, errorCorrectionBlockSize := 32
    privacyAmplificationLength := 128, enableEve := false, enableSecureMode := false }

/-- Two uncorrected errors: 6 qubits, no sampling, one block of 6. -/
def paramsTwoErrors : SimulationParameters :=
  { numQubits := 6, qberSampleSize := 0, errorCorrectionBlockSize := 6
    privacyAmplificationLength := 16, enableEve := true, enableSecureMode := false }

/-- Projection used to state counterexamples about the scalar outcome of a run
without spelling out the whole record. -/
def sampleSizeOf (x : Except SimError SimulationResult) : Option Int :=
  match x with
  | .ok r => match r.qberResult with
    | some q => some q.sampleSize
    | none => none
  | .error _ => none

/-- Projection: final key length and whether the two final keys coincide. -/
def finalLenOf (x : Except SimError SimulationResult) : Option (Nat × Bool) :=
  match x with
  | .ok r => some (r.finalKeyAlice.length, r.finalKeyAlice == r.finalKeyBob)
  | .error _ => none

/-- Projection: the headline scalar fields of a result. -/
def resultSummary (x : Except SimError SimulationResult) :
    Option (Nat × Bool × Nat × List Char × List Char) :=
  match x with
  | .ok r => some (r.siftedKeyLength, r.eveDetected, r.errorsCorrected,
      r.finalKeyAlice, r.finalKeyBob)
  | .error _ => none

/-! ## Lemmas: the rounding model -/

theorem bitLenAux_zero (fuel : ℕ) : bitLenAux fuel 0 = 0 := by
  cases fuel <;> simp [bitLenAux]

theorem bitLenAux_spec (fuel : ℕ) : ∀ n, n ≤ fuel → 1 ≤ n →
    n < 2 ^ bitLenAux fuel n ∧ 2 ^ bitLenAux fuel n ≤ 2 * n := by
  induction fuel with
  | zero => intro n h h1; omega
  | succ f ih =>
    intro n hle h1
    have hne : ¬ n = 0 := by omega
    rw [bitLenAux, if_neg hne]
    by_cases h2 : n / 2 = 0
    · have hn1 : n = 1 := by omega
      subst hn1
      norm_num [bitLenAux_zero]
    · have := ih (n / 2) (by omega) (by omega)
      rw [pow_succ]
      omega

theorem bitLen_spec (n : ℕ) (h : 1 ≤ n) :
    n < 2 ^ bitLen n ∧ 2 ^ bitLen n ≤ 2 * n :=
  bitLenAux_spec n n le_rfl h

theorem pow2_eq_zpow (k : ℤ) : pow2 k = (2 : ℚ) ^ k := by
  unfold pow2
  by_cases h : 0 ≤ k
  · rw [if_pos h]
    push_cast
    rw [← zpow_natCast]
    congr 1
    omega
  · rw [if_neg h]
    push_cast
    rw [← zpow_natCast, Int.toNat_of_nonneg (by omega), one_div, ← zpow_neg, neg_neg]

theorem zpow2_split (a b : ℤ) : (2 : ℚ) ^ (a + b) = 2 ^ a * 2 ^ b :=
  zpow_add₀ (two_ne_zero) a b

theorem qexp_spec (q : ℚ) (h : 0 < q) :
    (2 : ℚ) ^ qexp q ≤ q ∧ q < (2 : ℚ) ^ (qexp q + 1) := by
  have hB0 : (0 : ℚ) < (q.den : ℚ) := by exact_mod_cast q.pos
  have hnum : 1 ≤ q.num.natAbs := by
    have := Rat.num_pos.mpr h
    omega
  obtain ⟨ha1, ha2⟩ := bitLen_spec _ hnum
  obtain ⟨hb1, hb2⟩ := bitLen_spec _ q.pos
  have hq : q = (q.num.natAbs : ℚ) / (q.den : ℚ) := by
    have hnn : (0:ℤ) ≤ q.num := le_of_lt (Rat.num_pos.mpr h)
    rw [Int.cast_natAbs, abs_of_nonneg hnn]
    exact (Rat.num_div_den q).symm
  have haQ : (q.num.natAbs : ℚ) < (2 : ℚ) ^ (bitLen q.num.natAbs : ℤ) := by
    rw [zpow_natCast]; exact_mod_cast ha1
  have haQ2 : (2 : ℚ) ^ (bitLen q.num.natAbs : ℤ) ≤ 2 * (q.num.natAbs : ℚ) := by
    rw [zpow_natCast]; exact_mod_cast ha2
  have hbQ : (q.den : ℚ) < (2 : ℚ) ^ (bitLen q.den : ℤ) := by
    rw [zpow_natCast]; exact_mod_cast hb1
  have hbQ2 : (2 : ℚ) ^ (bitLen q.den : ℤ) ≤ 2 * (q.den : ℚ) := by
    rw [zpow_natCast]; exact_mod_cast hb2
  set la : ℤ := (bitLen q.num.natAbs : ℤ) with hla
  set lb : ℤ := (bitLen q.den : ℤ) with hlb
  have hsplitA : (2 : ℚ) ^ la = 2 * 2 ^ (la - 1) := by
    rw [show la = 1 + (la - 1) by ring, zpow2_split]
    norm_num
  have hsplitB : (2 : ℚ) ^ lb = 2 * 2 ^ (lb - 1) := by
    rw [show lb = 1 + (lb - 1) by ring, zpow2_split]
    norm_num
  have hBlow : (2 : ℚ) ^ (lb - 1) ≤ (q.den : ℚ) := by
    rw [hsplitB] at hbQ2
    linarith
  have hAlow : (2 : ℚ) ^ (la - 1) ≤ (q.num.natAbs : ℚ) := by
    rw [hsplitA] at haQ2
    linarith
  -- the upper estimate q < 2 ^ (la - lb + 1), valid unconditionally
  have hupper : q < (2 : ℚ) ^ (la - lb + 1) := by
    rw [hq, div_lt_iff₀ hB0]
    calc (q.num.natAbs : ℚ) < 2 ^ la := haQ
      _ = 2 ^ (la - lb + 1) * (2 : ℚ) ^ (lb - 1) := by
          rw [← zpow2_split]
          congr 1
          ring
      _ ≤ 2 ^ (la - lb + 1) * (q.den : ℚ) :=
          mul_le_mul_of_nonneg_left hBlow (le_of_lt (zpow_pos (by norm_num) _))
  -- the lower estimate 2 ^ (la - lb - 1) ≤ q, valid unconditionally
  have hlower : (2 : ℚ) ^ (la - lb - 1) ≤ q := by
    rw [hq, le_div_iff₀ hB0]
    calc (2:ℚ) ^ (la - lb - 1) * (q.den : ℚ)
        ≤ (2:ℚ) ^ (la - lb - 1) * 2 ^ lb :=
          mul_le_mul_of_nonneg_left (le_of_lt hbQ)
            (le_of_lt (zpow_pos (by norm_num) _))
      _ = (2:ℚ) ^ (la - 1) := by
          rw [← zpow2_split]
          congr 1
          ring
      _ ≤ (q.num.natAbs : ℚ) := hAlow
  unfold qexp
  simp only [pow2_eq_zpow]
  rw [abs_of_pos h]
  split
  · rename_i hcase
    exact ⟨hcase, hupper⟩
  · rename_i hcase
    constructor
    · exact hlower
    · have heq : la - lb - 1 + 1 = la - lb := by ring
      rw [heq]
      exact lt_of_not_le hcase

theorem roundEven_sub_abs (q : ℚ) : |(roundEven q : ℚ) - q| ≤ 1 / 2 := by
  have h0 : ((⌊q⌋ : ℤ) : ℚ) ≤ q := Int.floor_le q
  have h1 : q < (⌊q⌋ : ℚ) + 1 := Int.lt_floor_add_one q
  unfold roundEven
  split
  · rename_i hlt
    rw [abs_le]
    constructor <;> linarith
  · rename_i hge
    push_neg at hge
    split
    · rename_i hgt
      rw [abs_le]
      push_cast
      constructor <;> linarith
    · rename_i hle
      push_neg at hle
      split
      · rw [abs_le]
        constructor <;> linarith
      · rw [abs_le]
        push_cast
        constructor <;> linarith

theorem roundEven_intCast (m : ℤ) : roundEven (m : ℚ) = m := by
  unfold roundEven
  rw [Int.floor_intCast]
  norm_num

theorem round64_zero : round64 0 = 0 := by
  unfold round64
  simp

theorem round64_sub_abs (q : ℚ) (h : 0 < q) : |round64 q - q| ≤ q / 2 ^ 53 := by
  obtain ⟨he1, he2⟩ := qexp_spec q h
  unfold round64
  rw [if_neg (ne_of_gt h)]
  simp only [pow2_eq_zpow]
  set e := qexp q with hE
  set x := q * (2 : ℚ) ^ (52 - e) with hx
  have hzpos : (0 : ℚ) < (2 : ℚ) ^ (e - 52) := zpow_pos (by norm_num) _
  have hcancel : x * (2 : ℚ) ^ (e - 52) = q := by
    rw [hx, mul_assoc, ← zpow_add₀ (two_ne_zero)]
    norm_num
  calc |(roundEven x : ℚ) * 2 ^ (e - 52) - q|
      = |(roundEven x : ℚ) - x| * 2 ^ (e - 52) := by
        rw [← abs_of_pos hzpos, ← abs_mul, abs_of_pos hzpos, sub_mul, hcancel]
    _ ≤ (1 / 2) * 2 ^ (e - 52) :=
        mul_le_mul_of_nonneg_right (roundEven_sub_abs x) (le_of_lt hzpos)
    _ = 2 ^ e * (2 : ℚ) ^ (-53 : ℤ) := by
        rw [one_div, ← zpow_neg_one, ← zpow_add₀ (two_ne_zero), ← zpow_add₀ (two_ne_zero)]
        congr 1
        ring
    _ ≤ q * (2 : ℚ) ^ (-53 : ℤ) :=
        mul_le_mul_of_nonneg_right he1 (le_of_lt (zpow_pos (by norm_num) _))
    _ = q / 2 ^ 53 := by
        rw [zpow_neg, div_eq_mul_inv]
        congr 1
        rw [← zpow_natCast]
        norm_num

theorem round64_le_self_add (q : ℚ) (h : 0 < q) : round64 q ≤ q + q / 2 ^ 53 := by
  have := (abs_le.mp (round64_sub_abs q h)).2
  linarith

theorem self_sub_le_round64 (q : ℚ) (h : 0 < q) : q - q / 2 ^ 53 ≤ round64 q := by
  have := (abs_le.mp (round64_sub_abs q h)).1
  linarith

theorem round64_nonneg (q : ℚ) (h : 0 ≤ q) : 0 ≤ round64 q := by
  rcases eq_or_lt_of_le h with h0 | hpos
  · rw [← h0, round64_zero]
  · have h1 := self_sub_le_round64 q hpos
    have h2 : q / 2 ^ 53 ≤ q := div_le_self (le_of_lt hpos) (by norm_num)
    linarith

theorem round64_dyadic (m k : ℤ) (h0 : 0 < m) (h1 : m < 2 ^ 53) :
    round64 ((m : ℚ) * 2 ^ k) = (m : ℚ) * 2 ^ k := by
  have hq : (0 : ℚ) < (m : ℚ) * 2 ^ k :=
    mul_pos (by exact_mod_cast h0) (zpow_pos (by norm_num) k)
  obtain ⟨he1, he2⟩ := qexp_spec _ hq
  set e := qexp ((m : ℚ) * 2 ^ k) with hE
  have hle : e ≤ k + 52 := by
    by_contra hc
    push_neg at hc
    have hz : (2 : ℚ) ^ (k + 53) ≤ 2 ^ e :=
      zpow_le_zpow_right₀ (by norm_num) (by omega)
    have hm53 : (m : ℚ) < (2 : ℚ) ^ (53 : ℤ) := by
      have hcast : ((m : ℚ)) < ((2 ^ 53 : ℤ) : ℚ) := by exact_mod_cast h1
      have h53 : ((2 ^ 53 : ℤ) : ℚ) = (2 : ℚ) ^ (53 : ℤ) := by
        rw [show ((53 : ℤ)) = ((53 : ℕ) : ℤ) by norm_num, zpow_natCast]
        push_cast
        ring
      rw [← h53]
      exact hcast
    have hlt : (m : ℚ) * 2 ^ k < 2 ^ (k + 53) := by
      calc (m : ℚ) * 2 ^ k < (2 : ℚ) ^ (53 : ℤ) * 2 ^ k :=
            mul_lt_mul_of_pos_right hm53 (zpow_pos (by norm_num) _)
        _ = 2 ^ (k + 53) := by
            rw [← zpow_add₀ (two_ne_zero)]
            congr 1
            ring
    exact absurd (lt_of_le_of_lt he1 hlt) (not_lt.mpr hz)
  unfold round64
  rw [if_neg (ne_of_gt hq)]
  simp only [pow2_eq_zpow]
  rw [← hE]
  have hx : (m : ℚ) * 2 ^ k * (2 : ℚ) ^ (52 - e) = ((m * 2 ^ (k + 52 - e).toNat : ℤ) : ℚ) := by
    push_cast
    rw [mul_assoc, ← zpow_add₀ (two_ne_zero), ← zpow_natCast]
    congr 2
    omega
  rw [hx, roundEven_intCast, ← hx, mul_assoc, ← zpow_add₀ (two_ne_zero)]
  norm_num

theorem round64_intCast (n : ℤ) (h0 : 0 ≤ n) (h1 : n < 2 ^ 53) :
    round64 (n : ℚ) = n := by
  rcases eq_or_lt_of_le h0 with hz | hpos
  · rw [← hz]
    exact round64_zero
  · have := round64_dyadic n 0 hpos h1
    rwa [zpow_zero, mul_one] at this

theorem jsToDouble_eq (n : ℤ) (h0 : 0 ≤ n) (h1 : n < 2 ^ 53) :
    jsToDouble n = (n : ℚ) :=
  round64_intCast n h0 h1

theorem round64_le_of_nonneg (q : ℚ) (h : 0 ≤ q) : round64 q ≤ q + q / 2 ^ 53 := by
  rcases eq_or_lt_of_le h with h0 | hpos
  · rw [← h0, round64_zero]
    norm_num
  · exact round64_le_self_add q hpos

theorem jsSampleCount_nonneg (L : ℕ) (s : ℤ) (h0 : 0 ≤ s) :
    0 ≤ jsCeil (jsMul (jsToDouble L) (jsDiv (jsToDouble s) (jsToDouble 100))) := by
  apply Int.ceil_nonneg
  apply round64_nonneg
  apply mul_nonneg
  · apply round64_nonneg
    positivity
  · apply round64_nonneg
    apply div_nonneg
    · apply round64_nonneg
      exact_mod_cast h0
    · apply round64_nonneg
      norm_num

theorem jsSampleCount_le (L : ℕ) (s : ℤ) (hL : (L : ℤ) < 2 ^ 53)
    (h0 : 0 ≤ s) (h1 : s ≤ 100) :
    jsCeil (jsMul (jsToDouble L) (jsDiv (jsToDouble s) (jsToDouble 100))) ≤ L := by
  have hLd : jsToDouble (L : ℤ) = ((L : ℤ) : ℚ) :=
    round64_intCast _ (by positivity) hL
  have h100 : jsToDouble 100 = 100 := by
    have := round64_intCast 100 (by norm_num) (by norm_num)
    simpa [jsToDouble] using this
  have hsd : jsToDouble s = (s : ℚ) := round64_intCast s h0 (by omega)
  rcases eq_or_lt_of_le h0 with hs0 | hs1
  · rw [← hs0]
    have hz : jsToDouble 0 = 0 := by
      simp [jsToDouble, round64_zero]
    rw [hz]
    unfold jsDiv jsMul jsCeil
    rw [zero_div, round64_zero, mul_zero, round64_zero, Int.ceil_zero]
    exact Int.ofNat_nonneg L
  rcases eq_or_lt_of_le h1 with hs100 | hs99
  · subst hs100
    rw [h100]
    unfold jsDiv
    rw [div_self (by norm_num : (100:ℚ) ≠ 0)]
    have h1r : round64 1 = 1 := by
      have := round64_intCast 1 (by norm_num) (by norm_num)
      simpa using this
    rw [h1r]
    unfold jsMul jsCeil
    rw [hLd, mul_one, round64_intCast _ (by positivity) hL, Int.ceil_intCast]
  · -- 1 ≤ s ≤ 99
    rw [hLd, hsd, h100]
    unfold jsDiv
    set d := round64 ((s : ℚ) / 100) with hd
    have hsQ1 : (1 : ℚ) ≤ (s : ℚ) := by exact_mod_cast hs1
    have hsQ99 : (s : ℚ) ≤ 99 := by exact_mod_cast (by omega : s ≤ 99)
    have hq0 : (0 : ℚ) ≤ (s : ℚ) / 100 := by positivity
    have hd0 : 0 ≤ d := round64_nonneg _ hq0
    have hdle : d ≤ (99 / 100 : ℚ) * (1 + 1 / 2 ^ 53) := by
      calc d ≤ (s : ℚ) / 100 + ((s : ℚ) / 100) / 2 ^ 53 := round64_le_of_nonneg _ hq0
        _ = (s : ℚ) / 100 * (1 + 1 / 2 ^ 53) := by ring
        _ ≤ 99 / 100 * (1 + 1 / 2 ^ 53) := by
            apply mul_le_mul_of_nonneg_right _ (by norm_num)
            linarith
    unfold jsMul jsCeil
    have hLQ0 : (0 : ℚ) ≤ ((L : ℤ) : ℚ) := by positivity
    have hpn : 0 ≤ ((L : ℤ) : ℚ) * d := mul_nonneg hLQ0 hd0
    have hP : round64 (((L : ℤ) : ℚ) * d)
        ≤ ((L : ℤ) : ℚ) * ((99 / 100 : ℚ) * (1 + 1 / 2 ^ 53) * (1 + 1 / 2 ^ 53)) := by
      calc round64 (((L : ℤ) : ℚ) * d)
          ≤ ((L : ℤ) : ℚ) * d + (((L : ℤ) : ℚ) * d) / 2 ^ 53 :=
            round64_le_of_nonneg _ hpn
        _ = ((L : ℤ) : ℚ) * d * (1 + 1 / 2 ^ 53) := by ring
        _ ≤ ((L : ℤ) : ℚ) * ((99 / 100 : ℚ) * (1 + 1 / 2 ^ 53)) * (1 + 1 / 2 ^ 53) := by
            apply mul_le_mul_of_nonneg_right _ (by norm_num)
            exact mul_le_mul_of_nonneg_left hdle hLQ0
        _ = ((L : ℤ) : ℚ) * ((99 / 100 : ℚ) * (1 + 1 / 2 ^ 53) * (1 + 1 / 2 ^ 53)) := by
            ring
    have hfinal : round64 (((L : ℤ) : ℚ) * d) ≤ ((L : ℤ) : ℚ) := by
      have hcc : ((99 : ℚ) / 100 * (1 + 1 / 2 ^ 53) * (1 + 1 / 2 ^ 53)) ≤ 1 := by
        norm_num
      calc round64 (((L : ℤ) : ℚ) * d)
          ≤ ((L : ℤ) : ℚ) * ((99 / 100 : ℚ) * (1 + 1 / 2 ^ 53) * (1 + 1 / 2 ^ 53)) := hP
        _ ≤ ((L : ℤ) : ℚ) * 1 := mul_le_mul_of_nonneg_left hcc hLQ0
        _ = ((L : ℤ) : ℚ) := mul_one _
    exact Int.ceil_le.mpr hfinal

/-! ## Lemmas: error correction -/

theorem find?_range_first (n : ℕ) (p : ℕ → Bool) (j : ℕ)
    (h : (List.range n).find? p = some j) :
    p j = true ∧ ∀ i, i < j → p i = false := by
  induction n generalizing p j with
  | zero => simp [List.range_zero] at h
  | succ n ih =>
    rw [List.range_succ_eq_map] at h
    by_cases h0 : p 0
    · rw [List.find?_cons_of_pos _ h0] at h
      injection h with h
      subst h
      exact ⟨h0, fun i hi => absurd hi (Nat.not_lt_zero i)⟩
    · rw [List.find?_cons_of_neg _ h0, List.find?_map] at h
      cases hf : (List.range n).find? (p ∘ (· + 1)) with
      | none =>
        rw [hf] at h
        simp at h
      | some j' =>
        rw [hf] at h
        simp only [Option.map_some'] at h
        injection h with h
        subst h
        obtain ⟨hpj, hfst⟩ := ih (p ∘ (· + 1)) j' hf
        refine ⟨hpj, ?_⟩
        intro i hi
        cases i with
        | zero => exact Bool.not_eq_true _ ▸ (by revert h0; cases p 0 <;> simp)
        | succ k => exact hfst k (by omega)

theorem exists_find?_of_parity_ne (a b : List Bool) (hlen : b.length = a.length)
    (hp : parity a ≠ parity b) :
    ∃ j, (List.range a.length).find? (fun j => decide (a[j]? ≠ b[j]?)) = some j := by
  cases hf : (List.range a.length).find? (fun j => decide (a[j]? ≠ b[j]?)) with
  | some j => exact ⟨j, rfl⟩
  | none =>
    exfalso
    apply hp
    have hall := List.find?_eq_none.mp hf
    have hab : a = b := by
      apply List.ext_getElem?
      intro i
      by_cases hi : i < a.length
      · have hpi := hall i (List.mem_range.mpr hi)
        simpa using hpi
      · rw [List.getElem?_eq_none_iff.mpr (by omega),
          List.getElem?_eq_none_iff.mpr (by omega)]
    rw [hab]

theorem blockFixSpec_parity_eq (a b : List Bool) (hp : parity a = parity b) :
    blockFixSpec a b = b := by
  unfold blockFixSpec
  rw [if_pos hp]

theorem blockFixSpec_length (a b : List Bool) : (blockFixSpec a b).length = b.length := by
  unfold blockFixSpec
  by_cases hp : parity a = parity b
  · rw [if_pos hp]
  · rw [if_neg hp]
    cases hf : (List.range a.length).find? (fun j => decide (a[j]? ≠ b[j]?)) with
    | some j => exact List.length_set b j (a.getD j false)
    | none => rfl

theorem blockFixSpec_parity_ne (a b : List Bool) (hlen : b.length = a.length)
    (hp : parity a ≠ parity b) :
    ∃ j, j < a.length ∧ a[j]? ≠ b[j]? ∧ (∀ i, i < j → a[i]? = b[i]?) ∧
      blockFixSpec a b = b.set j (a.getD j false) ∧
      (blockFixSpec a b)[j]? = a[j]? ∧
      ∀ i, i ≠ j → (blockFixSpec a b)[i]? = b[i]? := by
  obtain ⟨j, hj⟩ := exists_find?_of_parity_ne a b hlen hp
  obtain ⟨hpj, hfirst⟩ := find?_range_first _ _ _ hj
  have hjlt : j < a.length := List.mem_range.mp (List.mem_of_find?_eq_some hj)
  have hjb : j < b.length := by omega
  have hne : a[j]? ≠ b[j]? := of_decide_eq_true hpj
  have hfix : blockFixSpec a b = b.set j (a.getD j false) := by
    unfold blockFixSpec
    rw [if_neg hp, hj]
  have hgetA : a[j]? = some (a.getD j false) := by
    rw [List.getD_eq_getElem?_getD, List.getElem?_eq_getElem hjlt]
    rfl
  refine ⟨j, hjlt, hne, ?_, hfix, ?_, ?_⟩
  · intro i hij
    have := hfirst i hij
    simpa using this
  · rw [hfix, List.getElem?_set_eq_of_lt _ hjb]
    exact hgetA.symm
  · intro i hij
    rw [hfix]
    exact List.getElem?_set_ne (Ne.symm hij)

theorem errorCorrect_nil (bs : ℕ) (bob : List Bool) :
    errorCorrect bs [] bob = (bob, 0) := by
  rw [errorCorrect]

theorem chunks_nil {α : Type} (bs : ℕ) : chunks bs ([] : List α) = [] := by
  rw [chunks]

theorem chunks_cons {α : Type} (bs : ℕ) (x : α) (rest : List α) (hbs : ¬ bs = 0) :
    chunks bs (x :: rest) = (x :: rest).take bs :: chunks bs ((x :: rest).drop bs) := by
  rw [chunks, if_neg hbs]

theorem errorCorrect_cons_eq (bs : ℕ) (hbs : 0 < bs) (a : Bool) (rest bob : List Bool)
    (hb : bob.length = (a :: rest).length) :
    errorCorrect bs (a :: rest) bob =
      (blockFixSpec ((a :: rest).take bs) (bob.take bs)
         ++ (errorCorrect bs ((a :: rest).drop bs) (bob.drop bs)).1,
       (if parity ((a :: rest).take bs) = parity (bob.take bs) then 0 else 1)
         + (errorCorrect bs ((a :: rest).drop bs) (bob.drop bs)).2) := by
  have hbs0 : ¬ bs = 0 := by omega
  rw [errorCorrect, if_neg hbs0]
  dsimp only
  have hlaB : ((a :: rest).take bs).length = min bs (rest.length + 1) := by
    simp [List.length_take]
  have hlbB : (bob.take bs).length = ((a :: rest).take bs).length := by
    simp only [List.length_take, hb, List.length_cons]
  have hcbl : min bs ((a :: rest).take bs).length = ((a :: rest).take bs).length := by
    omega
  have hne0 : ¬ ((a :: rest).take bs).length = 0 := by omega
  rw [hcbl, if_neg hne0, List.take_length]
  have htb : (bob.take bs).take ((a :: rest).take bs).length = bob.take bs := by
    rw [← hlbB, List.take_length]
  rw [htb]
  unfold blockFixSpec
  by_cases hpar : parity ((a :: rest).take bs) = parity (bob.take bs)
  · rw [if_pos hpar, if_pos hpar]
    simp [hpar]
  · rw [if_neg hpar, if_neg hpar]
    obtain ⟨j, hj⟩ := exists_find?_of_parity_ne _ _ hlbB hpar
    rw [hj]
    simp [hpar]

theorem errorCorrect_eq_blocks (bs : ℕ) (hbs : 0 < bs) (alice bob : List Bool)
    (hb : bob.length = alice.length) :
    errorCorrect bs alice bob =
      ((((chunks bs alice).zip (chunks bs bob)).map fun pr => blockFixSpec pr.1 pr.2).flatten,
        ((chunks bs alice).zip (chunks bs bob)).countP
          fun pr => decide (parity pr.1 ≠ parity pr.2)) := by
  have hbs0 : ¬ bs = 0 := by omega
  have hmain : ∀ (n : ℕ) (alice bob : List Bool), alice.length ≤ n →
      bob.length = alice.length →
      errorCorrect bs alice bob =
        ((((chunks bs alice).zip (chunks bs bob)).map fun pr => blockFixSpec pr.1 pr.2).flatten,
          ((chunks bs alice).zip (chunks bs bob)).countP
            fun pr => decide (parity pr.1 ≠ parity pr.2)) := by
    intro n
    induction n with
    | zero =>
      intro alice bob hn hbl
      have ha : alice = [] := List.eq_nil_of_length_eq_zero (by omega)
      subst ha
      have hbn : bob = [] := List.eq_nil_of_length_eq_zero (by simpa using hbl)
      subst hbn
      rw [errorCorrect_nil, chunks_nil]
      simp
    | succ n ih =>
      intro alice bob hn hbl
      rcases alice with _ | ⟨a, rest⟩
      · have hbn : bob = [] := List.eq_nil_of_length_eq_zero (by simpa using hbl)
        subst hbn
        rw [errorCorrect_nil, chunks_nil]
        simp
      · have hbne : bob ≠ [] := by
          intro hc
          rw [hc] at hbl
          simp at hbl
        obtain ⟨b, brest, rfl⟩ := List.exists_cons_of_ne_nil hbne
        have hlen1 : rest.length + 1 ≤ n + 1 := by simpa using hn
        have hlen2 : brest.length = rest.length := by simpa using hbl
        rw [errorCorrect_cons_eq bs hbs a rest _ hbl]
        rw [chunks_cons bs a rest hbs0, chunks_cons bs b brest hbs0]
        rw [List.zip_cons_cons, List.map_cons, List.flatten_cons, List.countP_cons]
        rw [ih ((a :: rest).drop bs) ((b :: brest).drop bs)
          (by simp only [List.length_drop, List.length_cons]; omega)
          (by simp only [List.length_drop, List.length_cons]; omega)]
        simp only [Prod.mk.injEq]
        refine ⟨trivial, ?_⟩
        by_cases hpar : parity ((a :: rest).take bs) = parity ((b :: brest).take bs)
        · rw [if_pos hpar, decide_eq_false (by simp [hpar])]
          simp
        · rw [if_neg hpar, decide_eq_true (by simp [hpar] : parity ((a :: rest).take bs) ≠ parity ((b :: brest).take bs))]
          simp only [if_true]
          omega
  exact hmain alice.length alice bob le_rfl hb

theorem errorCorrect_self (bs : ℕ) (l : List Bool) : errorCorrect bs l l = (l, 0) := by
  have hmain : ∀ (n : ℕ) (l : List Bool), l.length ≤ n → errorCorrect bs l l = (l, 0) := by
    intro n
    induction n with
    | zero =>
      intro l h
      have : l = [] := List.eq_nil_of_length_eq_zero (by omega)
      subst this
      exact errorCorrect_nil bs []
    | succ n ih =>
      intro l hl
      rcases l with _ | ⟨a, rest⟩
      · exact errorCorrect_nil bs []
      · by_cases hbs : bs = 0
        · subst hbs
          rw [errorCorrect]
          simp
        · have hlen1 : rest.length + 1 ≤ n + 1 := by simpa using hl
          rw [errorCorrect_cons_eq bs (by omega) a rest _ rfl, if_pos rfl,
            blockFixSpec_parity_eq _ _ rfl,
            ih ((a :: rest).drop bs) (by simp only [List.length_drop, List.length_cons]; omega)]
          simp [List.take_append_drop]
  exact hmain l.length l le_rfl

theorem errorCorrect_length (bs : ℕ) (hbs : 0 < bs) (alice bob : List Bool)
    (hb : bob.length = alice.length) :
    (errorCorrect bs alice bob).1.length = alice.length := by
  have hmain : ∀ (n : ℕ) (alice bob : List Bool), alice.length ≤ n →
      bob.length = alice.length → (errorCorrect bs alice bob).1.length = alice.length := by
    intro n
    induction n with
    | zero =>
      intro alice bob hn hbl
      have ha : alice = [] := List.eq_nil_of_length_eq_zero (by omega)
      subst ha
      have hbn : bob = [] := List.eq_nil_of_length_eq_zero (by simpa using hbl)
      subst hbn
      rw [errorCorrect_nil]
    | succ n ih =>
      intro alice bob hn hbl
      rcases alice with _ | ⟨a, rest⟩
      · have hbn : bob = [] := List.eq_nil_of_length_eq_zero (by simpa using hbl)
        subst hbn
        rw [errorCorrect_nil]
      · have hlen1 : rest.length + 1 ≤ n + 1 := by simpa using hn
        have hlen2 : bob.length = rest.length + 1 := by simpa using hbl
        rw [errorCorrect_cons_eq bs hbs a rest _ hbl]
        have htail := ih ((a :: rest).drop bs) (bob.drop bs)
          (by simp only [List.length_drop, List.length_cons]; omega)
          (by simp only [List.length_drop, List.length_cons]; omega)
        simp only [List.length_append, blockFixSpec_length, htail,
          List.length_take, List.length_drop, List.length_cons]
        omega
  exact hmain alice.length alice bob le_rfl hb

/-! ## Lemmas: sifting, QBER, hashing, control flow -/

theorem matchingIndices_mem (n : ℕ) (t : Tape) (i : ℕ) :
    i ∈ matchingIndices n t ↔ i < n ∧ t.aliceBasis i = t.bobBasis i := by
  unfold matchingIndices
  simp [List.mem_filter, List.mem_range]

theorem matchingIndices_length_le (n : ℕ) (t : Tape) :
    (matchingIndices n t).length ≤ n := by
  unfold matchingIndices
  calc (List.filter _ (List.range n)).length
      ≤ (List.range n).length := List.length_filter_le _ _
    _ = n := List.length_range n

theorem matchingIndices_sorted (n : ℕ) (t : Tape) :
    (matchingIndices n t).Pairwise (· < ·) := by
  unfold matchingIndices
  exact (List.pairwise_lt_range n).sublist (List.filter_sublist _)

theorem matchingIndices_eve_independent (n : ℕ) (t t' : Tape)
    (ha : t'.aliceBasis = t.aliceBasis) (hb : t'.bobBasis = t.bobBasis) :
    matchingIndices n t' = matchingIndices n t := by
  unfold matchingIndices
  rw [ha, hb]

theorem siftedLen_eq (p : SimulationParameters) (t : Tape) :
    siftedLen p t = (matchingIndices p.numQubits.toNat t).length := by
  unfold siftedLen siftedAliceKey
  rw [List.length_map]

theorem siftedKeys_length_eq (p : SimulationParameters) (t : Tape) :
    (siftedAliceKey p t).length = (siftedBobKey p t).length := by
  unfold siftedAliceKey siftedBobKey
  rw [List.length_map, List.length_map]

theorem siftedLen_le (p : SimulationParameters) (t : Tape) :
    siftedLen p t ≤ p.numQubits.toNat := by
  rw [siftedLen_eq]
  exact matchingIndices_length_le _ t

theorem bobBit_eq_aliceBit_of_agree (p : SimulationParameters) (t : Tape) (i : ℕ)
    (hEve : p.enableEve = false) (hag : t.aliceBasis i = t.bobBasis i) :
    bobBit p t i = t.aliceBit i := by
  unfold bobBit transBit transBasisAt measureQubit
  rw [hEve]
  simp [hag]

theorem siftedBobKey_eq_of_no_eve (p : SimulationParameters) (t : Tape)
    (hEve : p.enableEve = false) :
    siftedBobKey p t = siftedAliceKey p t := by
  unfold siftedBobKey siftedAliceKey
  apply List.map_congr_left
  intro i hi
  exact bobBit_eq_aliceBit_of_agree p t i hEve
    ((matchingIndices_mem _ _ _).mp hi).2

theorem mem_zip_self {α : Type} {pr : α × α} {l : List α} (h : pr ∈ l.zip l) :
    pr.1 = pr.2 := by
  induction l with
  | nil => simp at h
  | cons a rest ih =>
    rw [List.zip_cons_cons] at h
    rcases List.mem_cons.mp h with h1 | h2
    · rw [h1]
    · exact ih h2

theorem countMismatches_self (l : List Bool) : countMismatches l l = 0 := by
  unfold countMismatches
  rw [List.countP_eq_zero]
  intro pr hpr
  simp [mem_zip_self hpr]

theorem qberErrors_zero_of_no_eve (p : SimulationParameters) (t : Tape)
    (hEve : p.enableEve = false) : qberErrors p t = 0 := by
  unfold qberErrors
  rw [siftedBobKey_eq_of_no_eve p t hEve]
  exact countMismatches_self _

theorem qberValue_zero_of_errors_zero (p : SimulationParameters) (t : Tape)
    (h : qberErrors p t = 0) : qberValue p t = 0 := by
  unfold qberValue
  split
  · rw [h]
    unfold jsDiv jsToDouble
    norm_num [round64_zero]
  · rfl

theorem QBER_THRESHOLD_pos : 0 < QBER_THRESHOLD := by
  unfold QBER_THRESHOLD
  have h := self_sub_le_round64 (11 / 100) (by norm_num)
  have h2 : ((11 : ℚ) / 100) / 2 ^ 53 < 11 / 100 := by norm_num
  linarith

theorem qberSampleCount_nonneg (p : SimulationParameters) (t : Tape)
    (h0 : 0 ≤ p.qberSampleSize) : 0 ≤ qberSampleCount p t :=
  jsSampleCount_nonneg _ _ h0

theorem numQubits_toNat_lt (p : SimulationParameters) (h32 : p.numQubits < 2 ^ 32) :
    p.numQubits.toNat < 2 ^ 32 := by
  omega

theorem siftedLen_cast_lt (p : SimulationParameters) (t : Tape)
    (h32 : p.numQubits < 2 ^ 32) : ((siftedLen p t : ℤ)) < 2 ^ 53 := by
  have h1 := siftedLen_le p t
  have h2 := numQubits_toNat_lt p h32
  omega

theorem qberSampleCount_le_siftedLen (p : SimulationParameters) (t : Tape)
    (h32 : p.numQubits < 2 ^ 32) (h0 : 0 ≤ p.qberSampleSize)
    (h1 : p.qberSampleSize ≤ 100) :
    qberSampleCount p t ≤ siftedLen p t :=
  jsSampleCount_le _ _ (siftedLen_cast_lt p t h32) h0 h1

theorem ecKeyAlice_eq_drop (p : SimulationParameters) (t : Tape)
    (h0 : 0 ≤ qberSampleCount p t) :
    ecKeyAlice p t = (siftedAliceKey p t).drop (qberSampleCount p t).toNat := by
  unfold ecKeyAlice jsSliceFrom
  rw [if_pos h0]

theorem ecKeyBob_eq_drop (p : SimulationParameters) (t : Tape)
    (h0 : 0 ≤ qberSampleCount p t) :
    ecKeyBob p t = (siftedBobKey p t).drop (qberSampleCount p t).toNat := by
  unfold ecKeyBob jsSliceFrom
  rw [if_pos h0]

theorem ecKeys_length_eq (p : SimulationParameters) (t : Tape) :
    (ecKeyBob p t).length = (ecKeyAlice p t).length := by
  unfold ecKeyAlice ecKeyBob jsSliceFrom
  have hlen := siftedKeys_length_eq p t
  by_cases h0 : 0 ≤ qberSampleCount p t
  · rw [if_pos h0, if_pos h0]
    simp only [List.length_drop]
    omega
  · rw [if_neg h0, if_neg h0]
    simp only [List.length_drop]
    omega

theorem preECKeyLength_eq (p : SimulationParameters) (t : Tape)
    (h0 : 0 ≤ qberSampleCount p t) :
    preECKeyLength p t = siftedLen p t - (qberSampleCount p t).toNat := by
  unfold preECKeyLength
  rw [ecKeyAlice_eq_drop p t h0]
  simp only [List.length_drop]
  rfl

theorem reconciledKey_length (p : SimulationParameters) (t : Tape)
    (hbs : 0 < p.errorCorrectionBlockSize.toNat) :
    (reconciledKey p t).length = preECKeyLength p t :=
  errorCorrect_length _ hbs _ _ (ecKeys_length_eq p t)

theorem errorsCorrected_zero_of_no_eve (p : SimulationParameters) (t : Tape)
    (hEve : p.enableEve = false) :
    errorsCorrectedCount p t = 0 ∧ reconciledKey p t = ecKeyAlice p t := by
  have hkeys : ecKeyBob p t = ecKeyAlice p t := by
    unfold ecKeyAlice ecKeyBob
    rw [siftedBobKey_eq_of_no_eve p t hEve]
  unfold errorsCorrectedCount reconciledKey
  rw [hkeys, errorCorrect_self]
  exact ⟨rfl, rfl⟩

theorem sha256Bytes_length (msg : List Nat) : (sha256Bytes msg).length = 32 := by
  unfold sha256Bytes beBytes4
  simp

theorem sha256HexChars_length (msg : List Nat) : (sha256HexChars msg).length = 64 := by
  unfold sha256HexChars
  have hsum : ∀ l : List ℕ, (l.flatMap byteHex).length = 2 * l.length := by
    intro l
    induction l with
    | nil => simp
    | cons a r ih =>
      rw [List.flatMap_cons, List.length_append, ih]
      simp [byteHex]
      omega
  rw [hsum, sha256Bytes_length]

theorem finalKeyChars_length (p : SimulationParameters) (t : Tape) :
    (finalKeyChars p t).length = min (desiredHexLength p).toNat 64 := by
  unfold finalKeyChars
  rw [List.length_take, sha256HexChars_length]

theorem desiredHexLength_eq (p : SimulationParameters)
    (h0 : 0 < p.privacyAmplificationLength) (h1 : p.privacyAmplificationLength < 2 ^ 53) :
    desiredHexLength p = ⌈(p.privacyAmplificationLength : ℚ) / 4⌉ := by
  unfold desiredHexLength jsCeil jsDiv
  rw [jsToDouble_eq _ (le_of_lt h0) h1, jsToDouble_eq 4 (by norm_num) (by norm_num)]
  have hq : (p.privacyAmplificationLength : ℚ) / ((4 : ℤ) : ℚ)
      = (p.privacyAmplificationLength : ℚ) * 2 ^ (-2 : ℤ) := by
    have h4 : ((2 : ℚ) ^ (-2 : ℤ)) = 1 / 4 := by
      rw [zpow_neg, show ((2 : ℤ)) = ((2 : ℕ) : ℤ) by norm_num, zpow_natCast]
      norm_num
    rw [h4]
    push_cast
    ring
  rw [hq, round64_dyadic _ _ h0 h1, ← hq]
  norm_num

theorem run_eq_error (p : SimulationParameters) (t : Tape)
    (h : 2 ^ 32 ≤ p.numQubits) :
    runBB84Simulation p t = .error .rangeError := by
  unfold runBB84Simulation
  rw [if_pos h]

theorem run_eq_emptySift (p : SimulationParameters) (t : Tape)
    (h32 : ¬ 2 ^ 32 ≤ p.numQubits) (hL : siftedLen p t = 0) :
    runBB84Simulation p t = .ok (emptySiftResult p t) := by
  unfold runBB84Simulation
  rw [if_neg h32, if_pos hL]

theorem run_eq_eveDetected (p : SimulationParameters) (t : Tape)
    (h32 : ¬ 2 ^ 32 ≤ p.numQubits) (hL : ¬ siftedLen p t = 0)
    (hsec : p.enableSecureMode = true ∧ QBER_THRESHOLD < qberValue p t) :
    runBB84Simulation p t = .ok (eveDetectedResult p t) := by
  unfold runBB84Simulation
  rw [if_neg h32, if_neg hL, if_pos hsec]

theorem run_eq_emptyKey (p : SimulationParameters) (t : Tape)
    (h32 : ¬ 2 ^ 32 ≤ p.numQubits) (hL : ¬ siftedLen p t = 0)
    (hsec : ¬ (p.enableSecureMode = true ∧ QBER_THRESHOLD < qberValue p t))
    (hk : (reconciledKey p t).length = 0) :
    runBB84Simulation p t = .ok (emptyKeyResult p t) := by
  unfold runBB84Simulation
  rw [if_neg h32, if_neg hL, if_neg hsec, if_pos hk]

theorem run_eq_completed (p : SimulationParameters) (t : Tape)
    (h32 : ¬ 2 ^ 32 ≤ p.numQubits) (hL : ¬ siftedLen p t = 0)
    (hsec : ¬ (p.enableSecureMode = true ∧ QBER_THRESHOLD < qberValue p t))
    (hk : ¬ (reconciledKey p t).length = 0) :
    runBB84Simulation p t = .ok (completedResult p t) := by
  unfold runBB84Simulation
  rw [if_neg h32, if_neg hL, if_neg hsec, if_neg hk]

theorem finalKeys_eq (p : SimulationParameters) (t : Tape) (r : SimulationResult)
    (h : runBB84Simulation p t = .ok r) : r.finalKeyAlice = r.finalKeyBob := by
  unfold runBB84Simulation at h
  split at h
  · exact absurd h (by simp)
  · split at h
    · injection h with h
      rw [← h]
      rfl
    · split at h
      · injection h with h
        rw [← h]
        rfl
      · split at h
        · injection h with h
          rw [← h]
          rfl
        · injection h with h
          rw [← h]
          rfl

/-! ## The claims -/

set_option maxRecDepth 100000

/-- Claim C1: for every run with enableSecureMode = true whose computed QBER
exceeds QBER_THRESHOLD (the binary64 value of 0.11), the simulation returns
the eavesdropper-detected record: eveDetected = true, both final keys empty,
errorsCorrected = 0, and the run terminates at that point - the log is
exactly the prefix up to the alert, with no error-correction and no
privacy-amplification entry. -/
theorem claim1_eve_detected_exit (p : SimulationParameters) (t : Tape)
    (h32 : p.numQubits < 2 ^ 32) (hL : siftedLen p t ≠ 0)
    (hsec : p.enableSecureMode = true) (hq : QBER_THRESHOLD < qberValue p t) :
    runBB84Simulation p t = .ok (eveDetectedResult p t)
    ∧ (eveDetectedResult p t).eveDetected = true
    ∧ (eveDetectedResult p t).finalKeyAlice = []
    ∧ (eveDetectedResult p t).finalKeyBob = []
    ∧ (eveDetectedResult p t).errorsCorrected = 0
    ∧ (eveDetectedResult p t).qberResult = some (qberResultOf p t)
    ∧ (eveDetectedResult p t).log
        = logThroughQber p t ++ [LogEntry.alertEveDetected (qberValue p t) QBER_THRESHOLD]
    ∧ (∀ c, LogEntry.ecCompleted c ∉ (eveDetectedResult p t).log)
    ∧ (∀ b, LogEntry.paCompleted b ∉ (eveDetectedResult p t).log) := by
  refine ⟨run_eq_eveDetected p t (by omega) hL ⟨hsec, hq⟩, rfl, rfl, rfl, rfl, rfl, rfl,
    ?_, ?_⟩
  · intro c hc
    by_cases hEve : p.enableEve <;>
      simp [eveDetectedResult, logThroughQber, logThroughSift, logThroughMeasure,
        logThroughPrep, hEve] at hc
  · intro b hb
    by_cases hEve : p.enableEve <;>
      simp [eveDetectedResult, logThroughQber, logThroughSift, logThroughMeasure,
        logThroughPrep, hEve] at hb

/-- Witness for C1: a concrete 100-qubit secure-mode run with one injected
error in the sample (QBER one eighth) takes the eavesdropper-detected exit. -/
theorem claim1_eve_detected_exit_witness :
    (paramsFloatCeil.numQubits < 2 ^ 32
      ∧ siftedLen paramsFloatCeil tapeOneError ≠ 0
      ∧ paramsFloatCeil.enableSecureMode = true
      ∧ QBER_THRESHOLD < qberValue paramsFloatCeil tapeOneError)
    ∧ runBB84Simulation paramsFloatCeil tapeOneError
        = .ok (eveDetectedResult paramsFloatCeil tapeOneError)
    ∧ (eveDetectedResult paramsFloatCeil tapeOneError).eveDetected = true
    ∧ (eveDetectedResult paramsFloatCeil tapeOneError).finalKeyAlice = []
    ∧ (eveDetectedResult paramsFloatCeil tapeOneError).errorsCorrected = 0 := by
  have h := claim1_eve_detected_exit paramsFloatCeil tapeOneError
    (by with_unfolding_all decide) (by with_unfolding_all decide) rfl
    (by with_unfolding_all decide)
  exact ⟨⟨by with_unfolding_all decide, by with_unfolding_all decide, rfl,
    by with_unfolding_all decide⟩, h.1, h.2.1, h.2.2.1, h.2.2.2.2.1⟩

/-- Claim C3 (amended): when the corrected Bob key still mismatches the
Alice key, the run does proceed to privacy amplification using that possibly
mismatched Bob key, but the source derives both final hex keys from the
corrected Bob key alone, so finalKeyAlice always equals finalKeyBob - on every
exit path, including completed runs with a surviving mismatch. -/
theorem claim3_final_keys_always_equal :
    (∀ (p : SimulationParameters) (t : Tape) (r : SimulationResult),
      runBB84Simulation p t = .ok r → r.finalKeyAlice = r.finalKeyBob)
    ∧ (∀ (p : SimulationParameters) (t : Tape),
        p.numQubits < 2 ^ 32 → siftedLen p t ≠ 0 →
        ¬ (p.enableSecureMode = true ∧ QBER_THRESHOLD < qberValue p t) →
        (reconciledKey p t).length ≠ 0 →
        runBB84Simulation p t = .ok (completedResult p t)
        ∧ (completedResult p t).finalKeyAlice = finalKeyChars p t
        ∧ (completedResult p t).finalKeyBob = finalKeyChars p t)
    ∧ (∃ (p : SimulationParameters) (t : Tape),
        reconciledKey p t ≠ ecKeyAlice p t
        ∧ runBB84Simulation p t = .ok (completedResult p t)
        ∧ (completedResult p t).finalKeyAlice = (completedResult p t).finalKeyBob) := by
  refine ⟨finalKeys_eq, ?_, ?_⟩
  · exact fun p t h32 hL hsec hk =>
      ⟨run_eq_completed p t (by omega) hL hsec hk, rfl, rfl⟩
  · refine ⟨paramsTwoErrors, tapeTwoErrors, by with_unfolding_all decide, ?_, rfl⟩
    exact run_eq_completed _ _ (by with_unfolding_all decide)
      (by with_unfolding_all decide) (by with_unfolding_all decide)
      (by with_unfolding_all decide)

/-- Counterexample to C3 as stated: no parameters, tape and result exist for
which a returned SimulationResult has different final keys. -/
theorem claim3_counterexample :
    ¬ ∃ (p : SimulationParameters) (t : Tape) (r : SimulationResult),
        runBB84Simulation p t = .ok r ∧ r.finalKeyAlice ≠ r.finalKeyBob := by
  rintro ⟨p, t, r, hrun, hne⟩
  exact hne (finalKeys_eq p t r hrun)

/-- Claim C6: after sifting the two sifted keys have equal length, that
length is at most numQubits, and the keys are exactly the Alice bits and the
final measured Bob bits at the indices, in transmission order, where the
declared bases of Alice and Bob agree; the selected indices depend only on
the Alice and Bob bases, never on the Eve bases. -/
theorem claim6_sifting_invariants (p : SimulationParameters) (t : Tape) :
    (siftedAliceKey p t).length = (siftedBobKey p t).length
    ∧ siftedLen p t ≤ p.numQubits.toNat
    ∧ siftedAliceKey p t = (matchingIndices p.numQubits.toNat t).map t.aliceBit
    ∧ siftedBobKey p t = (matchingIndices p.numQubits.toNat t).map (bobBit p t)
    ∧ (∀ i, i ∈ matchingIndices p.numQubits.toNat t ↔
        i < p.numQubits.toNat ∧ t.aliceBasis i = t.bobBasis i)
    ∧ (matchingIndices p.numQubits.toNat t).Pairwise (· < ·)
    ∧ (∀ k : ℕ, (siftedAliceKey p t)[k]?
        = Option.map t.aliceBit (matchingIndices p.numQubits.toNat t)[k]?)
    ∧ (∀ k : ℕ, (siftedBobKey p t)[k]?
        = Option.map (bobBit p t) (matchingIndices p.numQubits.toNat t)[k]?)
    ∧ (∀ t' : Tape, t'.aliceBasis = t.aliceBasis → t'.bobBasis = t.bobBasis →
        matchingIndices p.numQubits.toNat t' = matchingIndices p.numQubits.toNat t) := by
  refine ⟨siftedKeys_length_eq p t, siftedLen_le p t, rfl, rfl,
    fun i => matchingIndices_mem _ t i, matchingIndices_sorted _ t, ?_, ?_, ?_⟩
  · intro k
    simp [siftedAliceKey]
  · intro k
    simp [siftedBobKey]
  · exact fun t' ha hb => matchingIndices_eve_independent _ t t' ha hb

/-- Claim C8: a run whose sifted key is empty returns immediately the empty
result: siftedKeyLength 0, no qberResult, eveDetected false, zero corrected
errors, empty keys, a no-matching-bases log entry, and no QBER, error
correction or privacy amplification stage is reached. -/
theorem claim8_empty_sift_exit (p : SimulationParameters) (t : Tape)
    (h32 : p.numQubits < 2 ^ 32) (hL : siftedLen p t = 0) :
    runBB84Simulation p t = .ok (emptySiftResult p t)
    ∧ (emptySiftResult p t).siftedKeyLength = 0
    ∧ (emptySiftResult p t).qberResult = none
    ∧ (emptySiftResult p t).eveDetected = false
    ∧ (emptySiftResult p t).errorsCorrected = 0
    ∧ (emptySiftResult p t).finalKeyAlice = []
    ∧ (emptySiftResult p t).finalKeyBob = []
    ∧ (emptySiftResult p t).log = logThroughSift p t ++ [LogEntry.noMatchingBases]
    ∧ LogEntry.noMatchingBases ∈ (emptySiftResult p t).log
    ∧ (∀ s e q, LogEntry.qberCheck s e q ∉ (emptySiftResult p t).log)
    ∧ (∀ c, LogEntry.ecCompleted c ∉ (emptySiftResult p t).log)
    ∧ (∀ b, LogEntry.paCompleted b ∉ (emptySiftResult p t).log) := by
  refine ⟨run_eq_emptySift p t (by omega) hL, rfl, rfl, rfl, rfl, rfl, rfl, rfl,
    ?_, ?_, ?_, ?_⟩
  · simp [emptySiftResult]
  · intro s e q hc
    by_cases hEve : p.enableEve <;>
      simp [emptySiftResult, logThroughSift, logThroughMeasure, logThroughPrep, hEve] at hc
  · intro c hc
    by_cases hEve : p.enableEve <;>
      simp [emptySiftResult, logThroughSift, logThroughMeasure, logThroughPrep, hEve] at hc
  · intro b hb
    by_cases hEve : p.enableEve <;>
      simp [emptySiftResult, logThroughSift, logThroughMeasure, logThroughPrep, hEve] at hb

/-- Witness for C8: four qubits whose bases never match short-circuit at
the sifting stage. -/
theorem claim8_empty_sift_exit_witness :
    (paramsClean.numQubits < 2 ^ 32 ∧ siftedLen paramsClean tapeNoMatch = 0)
    ∧ runBB84Simulation paramsClean tapeNoMatch
        = .ok (emptySiftResult paramsClean tapeNoMatch)
    ∧ (emptySiftResult paramsClean tapeNoMatch).siftedKeyLength = 0
    ∧ (emptySiftResult paramsClean tapeNoMatch).qberResult = none
    ∧ LogEntry.noMatchingBases ∈ (emptySiftResult paramsClean tapeNoMatch).log := by
  have h := claim8_empty_sift_exit paramsClean tapeNoMatch
    (by with_unfolding_all decide) (by with_unfolding_all decide)
  exact ⟨⟨by with_unfolding_all decide, by with_unfolding_all decide⟩,
    h.1, h.2.1, h.2.2.1, h.2.2.2.2.2.2.2.2.1⟩

/-- Claim C9 (amended): runBB84Simulation performs no parameter validation;
for every non-positive numQubits the sequences come out empty and the run
returns the empty-sift SimulationResult synchronously instead of raising an
error. -/
theorem claim9_no_validation (p : SimulationParameters) (t : Tape)
    (h : p.numQubits ≤ 0) :
    runBB84Simulation p t = .ok (emptySiftResult p t)
    ∧ (emptySiftResult p t).siftedKeyLength = 0
    ∧ (emptySiftResult p t).finalKeyAlice = []
    ∧ (emptySiftResult p t).finalKeyBob = []
    ∧ (emptySiftResult p t).errorsCorrected = 0
    ∧ (emptySiftResult p t).eveDetected = false := by
  have hL : siftedLen p t = 0 := by
    have := siftedLen_le p t
    omega
  exact ⟨run_eq_emptySift p t (by omega) hL, rfl, rfl, rfl, rfl, rfl⟩

/-- Witness for C9 (amended) at numQubits = -5. -/
theorem claim9_no_validation_witness :
    paramsNegative.numQubits ≤ 0
    ∧ runBB84Simulation paramsNegative tapeAllMatch
        = .ok (emptySiftResult paramsNegative tapeAllMatch)
    ∧ (emptySiftResult paramsNegative tapeAllMatch).siftedKeyLength = 0 := by
  have h := claim9_no_validation paramsNegative tapeAllMatch
    (by with_unfolding_all decide)
  exact ⟨by with_unfolding_all decide, h.1, h.2.1⟩

/-- Counterexample to C9 as stated: at numQubits = -5 the function returns a
SimulationResult (the empty-sift record, with empty keys and no error), it
does not raise. -/
theorem claim9_counterexample :
    resultSummary (runBB84Simulation paramsNegative tapeAllMatch)
      = some (0, false, 0, [], []) := by
  with_unfolding_all decide

/-- Claim C10: the siftedKeyLength field means different things on different
exit paths: 0 on the empty-sift exit, the full post-sifting length on the
eavesdropper-detected and empty-reconciled-key exits, and the post-sample
remainder length (full sifted length minus sample count) on the completed
path; the last genuinely differs from the full length on some runs. -/
theorem claim10_sifted_length_semantics :
    (∀ (p : SimulationParameters) (t : Tape), p.numQubits < 2 ^ 32 →
      siftedLen p t = 0 →
      runBB84Simulation p t = .ok (emptySiftResult p t)
      ∧ (emptySiftResult p t).siftedKeyLength = 0)
    ∧ (∀ (p : SimulationParameters) (t : Tape), p.numQubits < 2 ^ 32 →
      siftedLen p t ≠ 0 →
      (p.enableSecureMode = true ∧ QBER_THRESHOLD < qberValue p t) →
      runBB84Simulation p t = .ok (eveDetectedResult p t)
      ∧ (eveDetectedResult p t).siftedKeyLength = siftedLen p t)
    ∧ (∀ (p : SimulationParameters) (t : Tape), p.numQubits < 2 ^ 32 →
      siftedLen p t ≠ 0 →
      ¬ (p.enableSecureMode = true ∧ QBER_THRESHOLD < qberValue p t) →
      (reconciledKey p t).length = 0 →
      runBB84Simulation p t = .ok (emptyKeyResult p t)
      ∧ (emptyKeyResult p t).siftedKeyLength = siftedLen p t)
    ∧ (∀ (p : SimulationParameters) (t : Tape), p.numQubits < 2 ^ 32 →
      siftedLen p t ≠ 0 →
      ¬ (p.enableSecureMode = true ∧ QBER_THRESHOLD < qberValue p t) →
      (reconciledKey p t).length ≠ 0 →
      runBB84Simulation p t = .ok (completedResult p t)
      ∧ (completedResult p t).siftedKeyLength = preECKeyLength p t
      ∧ (0 ≤ qberSampleCount p t →
          preECKeyLength p t = siftedLen p t - (qberSampleCount p t).toNat))
    ∧ (∃ (p : SimulationParameters) (t : Tape),
        runBB84Simulation p t = .ok (completedResult p t)
        ∧ (completedResult p t).siftedKeyLength ≠ siftedLen p t) := by
  refine ⟨?_, ?_, ?_, ?_, ?_⟩
  · exact fun p t h32 hL => ⟨run_eq_emptySift p t (by omega) hL, rfl⟩
  · exact fun p t h32 hL hsec => ⟨run_eq_eveDetected p t (by omega) hL hsec, rfl⟩
  · exact fun p t h32 hL hsec hk => ⟨run_eq_emptyKey p t (by omega) hL hsec hk, rfl⟩
  · exact fun p t h32 hL hsec hk => ⟨run_eq_completed p t (by omega) hL hsec hk, rfl,
      fun h0 => preECKeyLength_eq p t h0⟩
  · refine ⟨paramsClean, tapeAllMatch, ?_, by with_unfolding_all decide⟩
    exact run_eq_completed _ _ (by with_unfolding_all decide)
      (by with_unfolding_all decide) (by with_unfolding_all decide)
      (by with_unfolding_all decide)

/-- Claim C7: with the eavesdropper disabled, the measured Bob bit equals
the Alice bit at every index where their independently drawn bases agree, for
all tapes; hence the sifted keys coincide, the QBER is exactly 0 with 0
sample errors, and every returned result reports 0 corrected errors. -/
theorem claim7_no_eve_no_errors (p : SimulationParameters) (t : Tape)
    (hEve : p.enableEve = false) :
    (∀ i, t.aliceBasis i = t.bobBasis i → bobBit p t i = t.aliceBit i)
    ∧ siftedBobKey p t = siftedAliceKey p t
    ∧ qberErrors p t = 0
    ∧ qberValue p t = 0
    ∧ (∀ r, runBB84Simulation p t = .ok r → r.errorsCorrected = 0
        ∧ (∀ q, r.qberResult = some q → q.qber = 0 ∧ q.errors = 0)) := by
  have hsb := siftedBobKey_eq_of_no_eve p t hEve
  have herr := qberErrors_zero_of_no_eve p t hEve
  have hqv := qberValue_zero_of_errors_zero p t herr
  have hec := errorsCorrected_zero_of_no_eve p t hEve
  refine ⟨fun i => bobBit_eq_aliceBit_of_agree p t i hEve, hsb, herr, hqv, ?_⟩
  intro r hr
  unfold runBB84Simulation at hr
  split at hr
  · exact absurd hr (by simp)
  · split at hr
    · injection hr with hr
      rw [← hr]
      refine ⟨rfl, ?_⟩
      intro q hq
      simp [emptySiftResult] at hq
    · split at hr
      · rename_i hcond
        exfalso
        rcases hcond with ⟨-, hlt⟩
        rw [hqv] at hlt
        exact absurd hlt (not_lt.mpr (le_of_lt QBER_THRESHOLD_pos))
      · split at hr
        · injection hr with hr
          rw [← hr]
          refine ⟨hec.1, ?_⟩
          intro q hq
          simp only [emptyKeyResult, Option.some.injEq] at hq
          rw [← hq]
          exact ⟨hqv, herr⟩
        · injection hr with hr
          rw [← hr]
          refine ⟨hec.1, ?_⟩
          intro q hq
          simp only [completedResult, Option.some.injEq] at hq
          rw [← hq]
          exact ⟨hqv, herr⟩

/-- Witness for C7: a 4-qubit run without Eve in which all bases agree. -/
theorem claim7_no_eve_no_errors_witness :
    paramsClean.enableEve = false
    ∧ (∀ i, tapeAllMatch.aliceBasis i = tapeAllMatch.bobBasis i →
        bobBit paramsClean tapeAllMatch i = tapeAllMatch.aliceBit i)
    ∧ qberErrors paramsClean tapeAllMatch = 0
    ∧ qberValue paramsClean tapeAllMatch = 0 := by
  have h := claim7_no_eve_no_errors paramsClean tapeAllMatch rfl
  exact ⟨rfl, h.1, h.2.2.1, h.2.2.2.1⟩

/-- Claim C5: error reconciliation is exactly blockwise single-error
correction: with both remainders cut into blocks of the given size (final
block shorter), a block pair with equal parities is untouched; one with
differing parities has precisely the first position where the bits differ
rewritten to the Alice bit, nothing else; the correction count is the number
of parity-mismatched blocks (at most one correction per block), and the
corrected key keeps the length of the Alice remainder. -/
theorem claim5_block_parity_correction (bs : ℕ) (alice bob : List Bool)
    (hbs : 0 < bs) (hlen : bob.length = alice.length) :
    errorCorrect bs alice bob =
      ((((chunks bs alice).zip (chunks bs bob)).map fun pr => blockFixSpec pr.1 pr.2).flatten,
        ((chunks bs alice).zip (chunks bs bob)).countP
          fun pr => decide (parity pr.1 ≠ parity pr.2))
    ∧ (errorCorrect bs alice bob).1.length = alice.length
    ∧ (∀ a b : List Bool, b.length = a.length →
        (parity a = parity b → blockFixSpec a b = b)
        ∧ (parity a ≠ parity b →
            ∃ j, j < a.length ∧ a[j]? ≠ b[j]? ∧ (∀ i, i < j → a[i]? = b[i]?)
              ∧ blockFixSpec a b = b.set j (a.getD j false)
              ∧ (blockFixSpec a b)[j]? = a[j]?
              ∧ (∀ i, i ≠ j → (blockFixSpec a b)[i]? = b[i]?))) :=
  ⟨errorCorrect_eq_blocks bs hbs alice bob hlen,
   errorCorrect_length bs hbs alice bob hlen,
   fun a b hab => ⟨blockFixSpec_parity_eq a b, blockFixSpec_parity_ne a b hab⟩⟩

/-- Witness for C5 on concrete two-bit blocks: both blocks have parity
mismatches and each gets exactly its first differing position corrected. -/
theorem claim5_block_parity_correction_witness :
    (0 < 2 ∧ ([false, false, true, false] : List Bool).length
        = ([true, false, true, true] : List Bool).length)
    ∧ errorCorrect 2 [true, false, true, true] [false, false, true, false] =
      ((((chunks 2 [true, false, true, true]).zip (chunks 2 [false, false, true, false])).map
          fun pr => blockFixSpec pr.1 pr.2).flatten,
        (((chunks 2 [true, false, true, true]).zip (chunks 2 [false, false, true, false])).countP
          fun pr => decide (parity pr.1 ≠ parity pr.2)))
    ∧ (errorCorrect 2 [true, false, true, true] [false, false, true, false]).1.length
        = ([true, false, true, true] : List Bool).length := by
  have h := claim5_block_parity_correction 2 [true, false, true, true]
    [false, false, true, false] (by decide) (by decide)
  exact ⟨⟨by decide, by decide⟩, h.1, h.2.1⟩

/-- Claim C4 (amended): the sample count is Math.ceil of the binary64
product siftedKeyLength * (qberSampleSize / 100) - which can exceed the
exact ceiling, see the counterexample - and for qberSampleSize in [0, 100]
it lies in [0, siftedKeyLength]; the error count compares exactly the first
sampleCount positions of the sifted keys; qber is the binary64 quotient
errors / sampleCount, 0 when the sample is empty; reconciliation operates
exactly on the suffixes of both sifted keys starting at sampleCount. -/
theorem claim4_qber_sampling (p : SimulationParameters) (t : Tape)
    (h32 : p.numQubits < 2 ^ 32) (h0 : 0 ≤ p.qberSampleSize)
    (h1 : p.qberSampleSize ≤ 100) :
    qberSampleCount p t
      = jsCeil (jsMul (jsToDouble (siftedLen p t))
          (jsDiv (jsToDouble p.qberSampleSize) (jsToDouble 100)))
    ∧ 0 ≤ qberSampleCount p t
    ∧ qberSampleCount p t ≤ siftedLen p t
    ∧ qberErrors p t
        = countMismatches ((siftedAliceKey p t).take (qberSampleCount p t).toNat)
            ((siftedBobKey p t).take (qberSampleCount p t).toNat)
    ∧ qberValue p t = (if 0 < qberSampleCount p t then
        jsDiv (jsToDouble (qberErrors p t)) (jsToDouble (qberSampleCount p t)) else 0)
    ∧ ecKeyAlice p t = (siftedAliceKey p t).drop (qberSampleCount p t).toNat
    ∧ ecKeyBob p t = (siftedBobKey p t).drop (qberSampleCount p t).toNat := by
  have hnn := qberSampleCount_nonneg p t h0
  exact ⟨rfl, hnn, qberSampleCount_le_siftedLen p t h32 h0 h1, rfl, rfl,
    ecKeyAlice_eq_drop p t hnn, ecKeyBob_eq_drop p t hnn⟩

/-- Witness for C4 (amended) on a clean 4-qubit run with a 25 percent
sample. -/
theorem claim4_qber_sampling_witness :
    (paramsClean.numQubits < 2 ^ 32 ∧ 0 ≤ paramsClean.qberSampleSize
      ∧ paramsClean.qberSampleSize ≤ 100)
    ∧ 0 ≤ qberSampleCount paramsClean tapeAllMatch
    ∧ qberSampleCount paramsClean tapeAllMatch ≤ siftedLen paramsClean tapeAllMatch
    ∧ ecKeyAlice paramsClean tapeAllMatch
        = (siftedAliceKey paramsClean tapeAllMatch).drop
            (qberSampleCount paramsClean tapeAllMatch).toNat := by
  have h := claim4_qber_sampling paramsClean tapeAllMatch
    (by with_unfolding_all decide) (by with_unfolding_all decide)
    (by with_unfolding_all decide)
  exact ⟨⟨by with_unfolding_all decide, by with_unfolding_all decide,
    by with_unfolding_all decide⟩, h.2.1, h.2.2.1, h.2.2.2.2.2.1⟩

/-- Counterexample to C4 as stated: a secure-mode run with sifted length 100
and qberSampleSize 7 records sampleSize 8 in its QBERResult, while the exact
ceiling of 100 * 7 / 100 is 7 - the binary64 product 100 * (7 / 100) lands
just above 7 and Math.ceil rounds it to 8. -/
theorem claim4_counterexample :
    sampleSizeOf (runBB84Simulation paramsFloatCeil tapeOneError) = some 8
    ∧ siftedLen paramsFloatCeil tapeOneError = 100
    ∧ paramsFloatCeil.qberSampleSize = 7
    ∧ ⌈((siftedLen paramsFloatCeil tapeOneError : ℚ) * 7 / 100)⌉ = 7
    ∧ (8 : ℤ) ≠ 7 := by
  refine ⟨by with_unfolding_all decide, by with_unfolding_all decide, rfl,
    by with_unfolding_all decide, by decide⟩

/-- Claim C2 (amended): a run reaching privacy amplification with a nonempty
reconciled key returns, for both parties, the lowercase SHA-256 hex digest
of the serialized reconciled key truncated to ceil(privacyAmplificationLength
/ 4) characters; since the digest has 64 hex characters the returned length
is min(ceil(length / 4), 64) - equal to ceil(length / 4) exactly when the
requested length is at most 256 bits - and the two final keys are
identical. -/
theorem claim2_final_key_truncation (p : SimulationParameters) (t : Tape)
    (h32 : p.numQubits < 2 ^ 32) (hL : siftedLen p t ≠ 0)
    (hsec : ¬ (p.enableSecureMode = true ∧ QBER_THRESHOLD < qberValue p t))
    (hk : (reconciledKey p t).length ≠ 0)
    (hp0 : 0 < p.privacyAmplificationLength)
    (hp53 : p.privacyAmplificationLength < 2 ^ 53) :
    runBB84Simulation p t = .ok (completedResult p t)
    ∧ (completedResult p t).finalKeyAlice
        = (sha256HexChars (bitsToAscii (reconciledKey p t))).take
            (Int.toNat ⌈(p.privacyAmplificationLength : ℚ) / 4⌉)
    ∧ (completedResult p t).finalKeyBob = (completedResult p t).finalKeyAlice
    ∧ (completedResult p t).finalKeyAlice.length
        = min (Int.toNat ⌈(p.privacyAmplificationLength : ℚ) / 4⌉) 64
    ∧ (p.privacyAmplificationLength ≤ 256 →
        (completedResult p t).finalKeyAlice.length
          = Int.toNat ⌈(p.privacyAmplificationLength : ℚ) / 4⌉) := by
  have hd := desiredHexLength_eq p hp0 hp53
  have hlen := finalKeyChars_length p t
  refine ⟨run_eq_completed p t (by omega) hL hsec hk, ?_, rfl, ?_, ?_⟩
  · show finalKeyChars p t = _
    unfold finalKeyChars
    rw [hd]
  · show (finalKeyChars p t).length = _
    rw [hlen, hd]
  · intro h256
    show (finalKeyChars p t).length = _
    rw [hlen, hd]
    have hceil : ⌈(p.privacyAmplificationLength : ℚ) / 4⌉ ≤ 64 := by
      apply Int.ceil_le.mpr
      rw [div_le_iff₀ (by norm_num : (0:ℚ) < 4)]
      push_cast
      have : (p.privacyAmplificationLength : ℚ) ≤ 256 := by exact_mod_cast h256
      linarith
    omega

/-- Witness for C2 (amended): the clean 4-qubit run, asking for 16 bits,
yields two identical 4-character keys. -/
theorem claim2_final_key_truncation_witness :
    (paramsClean.numQubits < 2 ^ 32 ∧ siftedLen paramsClean tapeAllMatch ≠ 0
      ∧ ¬ (paramsClean.enableSecureMode = true
            ∧ QBER_THRESHOLD < qberValue paramsClean tapeAllMatch)
      ∧ (reconciledKey paramsClean tapeAllMatch).length ≠ 0
      ∧ 0 < paramsClean.privacyAmplificationLength
      ∧ paramsClean.privacyAmplificationLength < 2 ^ 53)
    ∧ runBB84Simulation paramsClean tapeAllMatch
        = .ok (completedResult paramsClean tapeAllMatch)
    ∧ (completedResult paramsClean tapeAllMatch).finalKeyBob
        = (completedResult paramsClean tapeAllMatch).finalKeyAlice
    ∧ (completedResult paramsClean tapeAllMatch).finalKeyAlice.length
        = min (Int.toNat ⌈(paramsClean.privacyAmplificationLength : ℚ) / 4⌉) 64 := by
  have h := claim2_final_key_truncation paramsClean tapeAllMatch
    (by with_unfolding_all decide) (by with_unfolding_all decide)
    (by with_unfolding_all decide) (by with_unfolding_all decide)
    (by with_unfolding_all decide) (by with_unfolding_all decide)
  exact ⟨⟨by with_unfolding_all decide, by with_unfolding_all decide,
    by with_unfolding_all decide, by with_unfolding_all decide,
    by with_unfolding_all decide, by with_unfolding_all decide⟩,
    h.1, h.2.2.1, h.2.2.2.1⟩

/-- Counterexample to C2 as stated: with privacyAmplificationLength = 260
(ceil(260 / 4) = 65) a completed run returns final keys of 64 characters,
not 65 - the digest only has 64 hex characters to truncate. -/
theorem claim2_counterexample :
    finalLenOf (runBB84Simulation paramsLongKey tapeAllMatch) = some (64, true)
    ∧ paramsLongKey.privacyAmplificationLength = 260
    ∧ Int.toNat ⌈((260 : ℚ)) / 4⌉ = 65
    ∧ (64 : ℕ) ≠ 65 := by
  refine ⟨by with_unfolding_all decide, rfl, by with_unfolding_all decide, by decide⟩
